import Mathlib

/-!
Verification development for the tag-data cleaning module (tcleaner/data.py).

The module manipulates two pandas DataFrames bundled in a dataclass TagData:
a record table (columns id, tags, ...) and a tag catalog (columns name,
preserved attributes, count).  We embed the DataFrames shallowly:

* a cell value is a Value (null models NaN / missing, int models Python
  integers, str models Python strings, strList models a list of tag names);
* a row is an association list from column name to Value, mirroring the
  dicts produced by pandas Series.to_dict / DataFrame.to_dict;
* a DataFrame is a column list plus a row list; building a frame from a
  list of dicts (pd.DataFrame(list_of_dicts)) collects the columns in
  first-appearance order and aligns every row to the full column set,
  missing cells becoming null, exactly as pandas does;
* sort_values is a stable merge sort with the comparison pandas applies;
  sorting on a column absent from the frame (in particular sorting an
  empty frame, which has no columns) raises KeyError, modelled by an
  Except error;
* Python exceptions are the Err type: schemaError stands for the
  RuntimeError raised on a missing configured column, keyError for
  KeyError (a LookupError), typeError for TypeError.

The three operations TagData.from_parquet (minus the actual parquet file
reading: it receives the loaded frames), TagData.recalculate_tags and
TagData.clean_tags_in_table are translated line by line below.  Because
recalculate_tags reassigns self.df_tags, the two methods are modelled as
explicit state transformers returning (post-state of the invoked TagData,
returned TagData).
-/

namespace TCleaner

/-- A cell value of a DataFrame. -/
inductive Value where
  | null : Value
  | int (i : Int) : Value
  | str (s : String) : Value
  | strList (l : List String) : Value
deriving DecidableEq, Repr

/-- A row, as the dict pandas produces for it: column name to value. -/
abbrev Row := List (String × Value)

/-- Python d[k] on a row dict; missing keys give null (pandas aligns rows,
so a cell a row does not carry is NaN). -/
def Row.get (r : Row) (k : String) : Value :=
  match r.find? (fun p => p.1 == k) with
  | some p => p.2
  | none => Value.null

/-- Python dict update d[k] = v: overwrite in place, or append a new key. -/
def Row.set (r : Row) (k : String) (v : Value) : Row :=
  if r.any (fun p => p.1 == k) then
    r.map (fun p => if p.1 = k then (k, v) else p)
  else r ++ [(k, v)]

/-- The keys of a row dict. -/
def Row.keys (r : Row) : List String := r.map (·.1)

/-- A DataFrame: declared columns plus rows. -/
structure DF where
  cols : List String
  rows : List Row
deriving DecidableEq, Repr

/-- Insert a row's keys into a column list, first appearance first. -/
def insertKeys (cs : List String) : Row → List String
  | [] => cs
  | p :: rest => insertKeys (if p.1 ∈ cs then cs else cs ++ [p.1]) rest

/-- Accumulate the columns of a row list onto a starting column list. -/
def dfColsFrom (cs : List String) : List Row → List String
  | [] => cs
  | r :: rest => dfColsFrom (insertKeys cs r) rest

/-- Column list of pd.DataFrame(list_of_dicts): keys in first-appearance
order, deduplicated. -/
def dfCols (rows : List Row) : List String := dfColsFrom [] rows

/-- Align a row to the frame's column list (pandas row alignment). -/
def normRow (cols : List String) (r : Row) : Row :=
  cols.map (fun c => (c, Row.get r c))

/-- pd.DataFrame(list_of_dicts): derive the columns, align every row. -/
def dfOfRows (rows : List Row) : DF :=
  ⟨dfCols rows, rows.map (normRow (dfCols rows))⟩

/-- Rank of a value's constructor, used to compare values of distinct
kinds; pandas columns are homogeneous so only the same-kind cases are
exercised on real data. -/
def Value.rank : Value → Nat
  | .null => 0
  | .int _ => 1
  | .str _ => 2
  | .strList _ => 3

/-- Lexicographic comparison of character lists, the order Python uses
on strings (code-point lexicographic). -/
def charListLe : List Char → List Char → Bool
  | [], _ => true
  | _ :: _, [] => false
  | c :: cs, d :: ds =>
    if c < d then true
    else if d < c then false
    else charListLe cs ds

/-- Comparison on cell values: integers and strings by their order,
anything else by constructor rank (a total preorder). -/
def Value.le (a b : Value) : Bool :=
  match a, b with
  | .int i, .int j => decide (i ≤ j)
  | .str s, .str t => charListLe s.data t.data
  | a, b => decide (a.rank ≤ b.rank)

/-- Row comparison for sort_values(by=[id], ascending=[False]). -/
def rowLeId (a b : Row) : Bool :=
  Value.le (Row.get b "id") (Row.get a "id")

/-- Row comparison for sort_values(by=[count, name],
ascending=[False, True]): count descending, ties broken by name
ascending. -/
def rowLeTags (a b : Row) : Bool :=
  if Value.le (Row.get b "count") (Row.get a "count")
      && Value.le (Row.get a "count") (Row.get b "count") then
    Value.le (Row.get a "name") (Row.get b "name")
  else
    Value.le (Row.get b "count") (Row.get a "count")

/-- The record-table sort relation as a Prop. -/
def rowLeIdP (a b : Row) : Prop := rowLeId a b = true

instance : DecidableRel rowLeIdP := fun a b =>
  inferInstanceAs (Decidable (rowLeId a b = true))

/-- The catalog sort relation as a Prop. -/
def rowLeTagsP (a b : Row) : Prop := rowLeTags a b = true

instance : DecidableRel rowLeTagsP := fun a b =>
  inferInstanceAs (Decidable (rowLeTags a b = true))

/-- The Python exceptions the module can raise. -/
inductive Err where
  | schemaError : Err
  | keyError : Err
  | typeError : Err
deriving DecidableEq, Repr

instance {ε α : Type} [DecidableEq ε] [DecidableEq α] : DecidableEq (Except ε α) :=
  fun x y =>
  match x, y with
  | .ok a, .ok b =>
    if h : a = b then .isTrue (by rw [h])
    else .isFalse (fun hh => by injection hh with hh2; exact h hh2)
  | .error e, .error f =>
    if h : e = f then .isTrue (by rw [h])
    else .isFalse (fun hh => by injection hh with hh2; exact h hh2)
  | .ok _, .error _ => .isFalse (fun hh => by cases hh)
  | .error _, .ok _ => .isFalse (fun hh => by cases hh)

/-- df.sort_values(by=[id], ascending=[False]): KeyError when the frame
has no id column (in particular when the frame is empty). -/
def sortTableDF (df : DF) : Except Err DF :=
  if "id" ∈ df.cols then .ok ⟨df.cols, List.insertionSort rowLeIdP df.rows⟩
  else .error .keyError

/-- df.sort_values(by=[count, name], ascending=[False, True]): KeyError
when a sort column is missing (in particular on an empty frame). -/
def sortTagsDF (df : DF) : Except Err DF :=
  if "count" ∈ df.cols ∧ "name" ∈ df.cols then
    .ok ⟨df.cols, List.insertionSort rowLeTagsP df.rows⟩
  else .error .keyError

/-- Iterating a cell as a tag list (for tag in d_item[tags]): TypeError
unless the cell holds a list. -/
def Value.getTags : Value → Except Err (List String)
  | .strList l => .ok l
  | _ => .error .typeError

/-- The running tally d_tags: an insertion-ordered mapping tag name to
count, as a Python (default)dict. -/
abbrev Tally := List (String × Nat)

/-- d_tags[t] += 1 on a defaultdict(lambda: 0). -/
def tallyInsert (m : Tally) (t : String) : Tally :=
  if m.any (fun p => p.1 == t) then
    m.map (fun p => if p.1 = t then (p.1, p.2 + 1) else p)
  else m ++ [(t, 1)]

/-- Tally one record's tag list. -/
def tallyList (m : Tally) : List String → Tally
  | [] => m
  | t :: rest => tallyList (tallyInsert m t) rest

/-- Tally record tag lists in scan order onto a starting tally. -/
def tallyAllFrom (m : Tally) : List (List String) → Tally
  | [] => m
  | l :: rest => tallyAllFrom (tallyList m l) rest

/-- Tally all records' tag lists, in scan order. -/
def tallyAll (ls : List (List String)) : Tally := tallyAllFrom [] ls

/-- Lookup in a dict built as item[key]: item for item in rows (later
rows overwrite earlier ones, so the last matching row wins). -/
def dictLookup (rows : List Row) (c : String) (v : Value) : Option Row :=
  rows.reverse.find? (fun r => decide (Row.get r c = v))

/-- The tag list the ingestion scan derives from one raw record:
preprocess the raw tags cell, then filter to the expected reference
names when a reference list was supplied (data.py lines 59-61). -/
def scanTags (tc : String) (pre : Value → List String)
    (expected : Option (List Value)) (raw : Row) : List String :=
  match expected with
  | some ex => (pre (Row.get raw tc)).filter (fun t => decide (Value.str t ∈ ex))
  | none => pre (Row.get raw tc)

/-- The record ingestion appends for one raw record: only id and tags
(data.py line 62). -/
def scanRow (idc tc : String) (pre : Value → List String)
    (expected : Option (List Value)) (raw : Row) : Row :=
  [("id", Row.get raw idc), ("tags", Value.strList (scanTags tc pre expected raw))]

/-- A catalog row built as the dict literal name: t, **preserved,
count: c — later keys overwrite earlier ones, as in Python. -/
def buildRowDict (t : String) (presPairs : List (String × Value)) (c : Nat) : Row :=
  Row.set (presPairs.foldl (fun r p => Row.set r p.1 p.2) [("name", Value.str t)])
    "count" (Value.int c)

/-- One catalog row of ingestion (data.py lines 69-73).  The preserved
columns are read from d_raw_tags[tag]; when no columns are preserved the
comprehension is empty and d_raw_tags is never touched; with preserved
columns, a missing reference list is a TypeError (None subscription) and
a missing tag a KeyError. -/
def buildRefTagRow (pres : List String) (dRaw : Option (List Row)) (nc : String)
    (t : String) (c : Nat) : Except Err Row :=
  if pres.isEmpty then .ok (buildRowDict t [] c)
  else
    match dRaw with
    | none => .error .typeError
    | some rows =>
      match dictLookup rows nc (Value.str t) with
      | none => .error .keyError
      | some r => .ok (buildRowDict t (pres.map (fun col => (col, Row.get r col))) c)

/-- All catalog rows of ingestion, one per tally entry in tally order. -/
def buildRefTagRows (pres : List String) (dRaw : Option (List Row)) (nc : String) :
    Tally → Except Err (List Row)
  | [] => .ok []
  | (t, c) :: rest =>
    match buildRefTagRow pres dRaw nc t c with
    | .error e => .error e
    | .ok r =>
      match buildRefTagRows pres dRaw nc rest with
      | .error e => .error e
      | .ok rs => .ok (r :: rs)

/-- The catalog columns other than name and count, whose values
recalculation preserves (data.py line 94). -/
def preservedCols (cols : List String) : List String :=
  cols.filter (fun c => !(c == "name") && !(c == "count"))

/-- One catalog row of recalculation (data.py lines 92-96): preserved
values are read from d_tags[tag]; when the catalog has no preserved
columns the comprehension is empty and d_tags is never indexed, so a
missing tag raises nothing; otherwise a missing tag is a KeyError. -/
def buildRecalcTagRow (pcols : List String) (catRows : List Row)
    (t : String) (c : Nat) : Except Err Row :=
  if pcols.isEmpty then .ok (buildRowDict t [] c)
  else
    match dictLookup catRows "name" (Value.str t) with
    | none => .error .keyError
    | some r => .ok (buildRowDict t (pcols.map (fun col => (col, Row.get r col))) c)

/-- All catalog rows of recalculation, one per tally entry. -/
def buildRecalcTagRows (pcols : List String) (catRows : List Row) :
    Tally → Except Err (List Row)
  | [] => .ok []
  | (t, c) :: rest =>
    match buildRecalcTagRow pcols catRows t c with
    | .error e => .error e
    | .ok r =>
      match buildRecalcTagRows pcols catRows rest with
      | .error e => .error e
      | .ok rs => .ok (r :: rs)

/-- Extract every record's tag list, in scan order (the loops at data.py
lines 86-89 and 109-111 iterate d_item[tags]). -/
def getTagLists : List Row → Except Err (List (List String))
  | [] => .ok []
  | r :: rs =>
    match Value.getTags (Row.get r "tags") with
    | .error e => .error e
    | .ok l =>
      match getTagLists rs with
      | .error e => .error e
      | .ok ls => .ok (l :: ls)

/-- The dataclass TagData: the record table and the tag catalog. -/
structure TagData where
  df_table : DF
  df_tags : DF
deriving DecidableEq, Repr

/-- Check of the reference list's name column (data.py line 43). -/
def refNameColOk : Option DF → String → Prop
  | none, _ => True
  | some d, nc => nc ∈ d.cols

instance : ∀ (o : Option DF) (nc : String), Decidable (refNameColOk o nc)
  | none, _ => .isTrue trivial
  | some _, _ => inferInstanceAs (Decidable (_ ∈ _))

/-- The set expected_tags of reference names (data.py line 46), None when
no reference list is given. -/
def expectedOf (dfTagsRef : Option DF) (nc : String) : Option (List Value) :=
  dfTagsRef.map (fun d => d.rows.map (fun r => Row.get r nc))

/-- TagData.from_parquet with the two parquet files already loaded into
frames (file reading is I/O plumbing outside the core).  Arguments mirror
the keyword arguments: id and tags column of the table, the tag
preprocessing function (modelled as already producing the tag-name list),
the reference list's name column, and the preserved columns. -/
def from_parquet (dfTable : DF) (dfTagsRef : Option DF) (idc tc : String)
    (pre : Value → List String) (nc : String) (pres : List String) :
    Except Err TagData :=
  if idc ∈ dfTable.cols then
    if tc ∈ dfTable.cols then
      if refNameColOk dfTagsRef nc then
        match sortTableDF (dfOfRows
            (dfTable.rows.map (scanRow idc tc pre (expectedOf dfTagsRef nc)))) with
        | .error e => .error e
        | .ok dft =>
          match buildRefTagRows pres (dfTagsRef.map DF.rows) nc
              (tallyAll (dfTable.rows.map (scanTags tc pre (expectedOf dfTagsRef nc)))) with
          | .error e => .error e
          | .ok tagRows =>
            match sortTagsDF (dfOfRows tagRows) with
            | .error e => .error e
            | .ok dfg => .ok ⟨dft, dfg⟩
      else .error .schemaError
    else .error .schemaError
  else .error .schemaError

/-- TagData.recalculate_tags.  Returns (post-state of self, returned
TagData): the method ends with self.df_tags = df_tags, so on success the
invoked TagData's catalog field is rebound to the fresh catalog; on an
error raised earlier, self is left as it was. -/
def recalculate_tags (td : TagData) : Except Err (TagData × TagData) :=
  match getTagLists td.df_table.rows with
  | .error e => .error e
  | .ok tls =>
    match buildRecalcTagRows (preservedCols td.df_tags.cols) td.df_tags.rows
        (tallyAll tls) with
    | .error e => .error e
    | .ok tagRows =>
      match sortTagsDF (dfOfRows tagRows) with
      | .error e => .error e
      | .ok dfg => .ok (⟨td.df_table, dfg⟩, ⟨td.df_table, dfg⟩)

/-- One cleaned record (data.py lines 109-112): the record's own dict
with its tags filtered to the catalog's names, every other field kept. -/
def cleanRows (existing : List Value) : List Row → Except Err (List Row)
  | [] => .ok []
  | r :: rs =>
    match Value.getTags (Row.get r "tags") with
    | .error e => .error e
    | .ok ts =>
      match cleanRows existing rs with
      | .error e => .error e
      | .ok rest =>
        .ok (Row.set r "tags"
          (Value.strList (ts.filter (fun t => decide (Value.str t ∈ existing)))) :: rest)

/-- TagData.clean_tags_in_table.  Returns (post-state of self, returned
TagData); the method never assigns to self, so the post-state is the
input (the chained recalculation mutates only the freshly built
retval). -/
def clean_tags_in_table (td : TagData) (recalc : Bool) :
    Except Err (TagData × TagData) :=
  if "name" ∈ td.df_tags.cols then
    let existing : List Value := td.df_tags.rows.map (fun r => Row.get r "name")
    match cleanRows existing td.df_table.rows with
    | .error e => .error e
    | .ok rows =>
      match sortTableDF (dfOfRows rows) with
      | .error e => .error e
      | .ok dft =>
        if recalc then
          match recalculate_tags ⟨dft, td.df_tags⟩ with
          | .error e => .error e
          | .ok (_, r) => .ok (td, r)
        else .ok (td, ⟨dft, td.df_tags⟩)
  else .error .keyError

/-- Sortedness of a materialized frame with respect to a comparison. -/
def sortedRows (le : Row → Row → Bool) (rs : List Row) : Prop :=
  List.Pairwise (fun a b => le a b = true) rs

instance (le : Row → Row → Bool) (rs : List Row) : Decidable (sortedRows le rs) :=
  inferInstanceAs (Decidable (List.Pairwise _ _))

/-- Model of the default identity tag preprocess (lambda x: x): the raw
tags cell already holds the tag-name list. -/
def preId : Value → List String
  | .strList l => l
  | _ => []

/-- Numeric reading of a count cell. -/
def valNat : Value → Nat
  | .int i => i.toNat
  | _ => 0

/-- Sample input table of the specification's end-to-end example. -/
def tblA : DF := ⟨["id", "tags"],
  [[("id", Value.int 1), ("tags", Value.strList ["a", "b", "a"])],
   [("id", Value.int 2), ("tags", Value.strList ["b", "c"])]]⟩

/-- Sample reference tag list of the end-to-end example. -/
def refA : DF := ⟨["name"], [[("name", Value.str "a")], [("name", Value.str "b")]]⟩

/-- Result of ingesting tblA against refA. -/
def tdAout : TagData :=
  ⟨⟨["id", "tags"],
    [[("id", Value.int 2), ("tags", Value.strList ["b"])],
     [("id", Value.int 1), ("tags", Value.strList ["a", "b", "a"])]]⟩,
   ⟨["name", "count"],
    [[("name", Value.str "a"), ("count", Value.int 2)],
     [("name", Value.str "b"), ("count", Value.int 2)]]⟩⟩

/-- Sample TagData whose store and catalog agree on the single tag x but
whose count (5) is stale. -/
def c9td : TagData :=
  ⟨⟨["id", "tags"], [[("id", Value.int 1), ("tags", Value.strList ["x"])]]⟩,
   ⟨["name", "count"], [[("name", Value.str "x"), ("count", Value.int 5)]]⟩⟩

/-- The catalog recalculation produces from c9td's store. -/
def c9cat1 : DF := ⟨["name", "count"], [[("name", Value.str "x"), ("count", Value.int 1)]]⟩

/-- Sample TagData whose store holds tag x while its catalog (with no
preserved columns) only knows tag y. -/
def c7td : TagData :=
  ⟨⟨["id", "tags"], [[("id", Value.int 1), ("tags", Value.strList ["x"])]]⟩,
   ⟨["name", "count"], [[("name", Value.str "y"), ("count", Value.int 1)]]⟩⟩

/-- Like c7td but the catalog carries a preserved column cat. -/
def c7td2 : TagData :=
  ⟨⟨["id", "tags"], [[("id", Value.int 1), ("tags", Value.strList ["x"])]]⟩,
   ⟨["name", "cat", "count"],
    [[("name", Value.str "y"), ("cat", Value.str "g"), ("count", Value.int 1)]]⟩⟩

/-- Sample input table carrying an extra column besides id and tags. -/
def c6tbl : DF := ⟨["id", "tags", "extra"],
  [[("id", Value.int 1), ("tags", Value.strList ["a"]), ("extra", Value.str "E")]]⟩

/-- Result of ingesting c6tbl without a reference list. -/
def c6out : TagData :=
  ⟨⟨["id", "tags"], [[("id", Value.int 1), ("tags", Value.strList ["a"])]]⟩,
   ⟨["name", "count"], [[("name", Value.str "a"), ("count", Value.int 1)]]⟩⟩

/-! ### Basic lemmas about row dictionaries -/

theorem Row.get_cons (p : String × Value) (rest : Row) (k : String) :
    Row.get (p :: rest) k = if p.1 = k then p.2 else Row.get rest k := by
  by_cases h : p.1 = k <;> simp [Row.get, List.find?_cons, h]

theorem Row.get_nil (k : String) : Row.get [] k = Value.null := rfl

theorem Row.mem_keys_of_get_ne_null {r : Row} {k : String}
    (h : Row.get r k ≠ Value.null) : k ∈ Row.keys r := by
  induction r with
  | nil => exact absurd rfl h
  | cons p rest ih =>
    rw [Row.get_cons] at h
    by_cases hp : p.1 = k
    · simp [Row.keys, hp]
    · simp [Row.keys]
      right
      have := ih (by simpa [hp] using h)
      simpa [Row.keys] using this

theorem Row.get_map_upd {r : Row} {k : String} (v : Value)
    (h : ∃ p ∈ r, p.1 = k) :
    Row.get (r.map (fun p => if p.1 = k then (k, v) else p)) k = v := by
  induction r with
  | nil => simp at h
  | cons q rest ih =>
    simp only [List.map_cons]
    by_cases hq : q.1 = k
    · rw [if_pos hq, Row.get_cons, if_pos rfl]
    · rw [if_neg hq, Row.get_cons, if_neg hq]
      rcases h with ⟨p, hp, hpk⟩
      rcases List.mem_cons.mp hp with rfl | hmem
      · exact absurd hpk hq
      · exact ih ⟨p, hmem, hpk⟩

theorem Row.get_append_single {r : Row} {k : String} (v : Value)
    (h : ∀ p ∈ r, p.1 ≠ k) :
    Row.get (r ++ [(k, v)]) k = v := by
  induction r with
  | nil => simp [Row.get]
  | cons q rest ih =>
    have hq : q.1 ≠ k := h q (by simp)
    rw [List.cons_append, Row.get_cons, if_neg hq]
    exact ih (fun p hp => h p (by simp [hp]))

theorem Row.get_set_self (r : Row) (k : String) (v : Value) :
    Row.get (Row.set r k v) k = v := by
  unfold Row.set
  by_cases h : r.any (fun p => p.1 == k)
  · rw [if_pos h]
    exact Row.get_map_upd v (by simpa using h)
  · rw [if_neg h]
    refine Row.get_append_single v ?_
    intro p hp
    simp only [List.any_eq_true, beq_iff_eq, not_exists, not_and] at h
    exact h p hp

theorem Row.get_set_ne (r : Row) {k k' : String} (v : Value) (h : k' ≠ k) :
    Row.get (Row.set r k v) k' = Row.get r k' := by
  unfold Row.set
  by_cases hany : r.any (fun p => p.1 == k)
  · rw [if_pos hany]
    clear hany
    induction r with
    | nil => rfl
    | cons q rest ih =>
      simp only [List.map_cons]
      by_cases hq : q.1 = k
      · rw [if_pos hq, Row.get_cons, Row.get_cons,
          if_neg (fun hh => h hh.symm), if_neg (fun hh => h (hq ▸ hh).symm)]
        exact ih
      · rw [if_neg hq, Row.get_cons, Row.get_cons]
        by_cases hq' : q.1 = k'
        · rw [if_pos hq', if_pos hq']
        · rw [if_neg hq', if_neg hq']
          exact ih
  · rw [if_neg hany]
    clear hany
    induction r with
    | nil =>
      rw [List.nil_append, Row.get_cons, if_neg (fun hh => h hh.symm)]
    | cons q rest ih =>
      rw [List.cons_append, Row.get_cons, Row.get_cons]
      by_cases hq' : q.1 = k'
      · rw [if_pos hq', if_pos hq']
      · rw [if_neg hq', if_neg hq']
        exact ih

theorem Row.map_upd_id_of_not_mem {r : Row} {k : String} (v : Value)
    (h : k ∉ Row.keys r) :
    r.map (fun p => if p.1 = k then (k, v) else p) = r := by
  induction r with
  | nil => rfl
  | cons q rest ih =>
    simp only [Row.keys, List.map_cons, List.mem_cons, not_or] at h
    have hq : ¬ q.1 = k := fun hh => h.1 hh.symm
    simp only [List.map_cons, if_neg hq]
    rw [ih (by simpa [Row.keys] using h.2)]

theorem Row.map_upd_id_of_get {r : Row} {k : String} {v : Value}
    (hmem : k ∈ Row.keys r) (hnd : (Row.keys r).Nodup)
    (hget : Row.get r k = v) :
    r.map (fun p => if p.1 = k then (k, v) else p) = r := by
  induction r with
  | nil => rfl
  | cons q rest ih =>
    simp only [Row.keys, List.map_cons, List.nodup_cons] at hnd
    simp only [List.map_cons]
    by_cases hq : q.1 = k
    · rw [Row.get_cons, if_pos hq] at hget
      rw [if_pos hq, Row.map_upd_id_of_not_mem v (hq ▸ hnd.1)]
      rw [show ((k, v) : String × Value) = q from by
        rw [← hq, ← hget]]
    · rw [Row.get_cons, if_neg hq] at hget
      simp only [Row.keys, List.map_cons, List.mem_cons] at hmem
      rcases hmem with h1 | h1
      · exact absurd h1.symm hq
      · rw [if_neg hq, ih (by simpa [Row.keys] using h1) hnd.2 hget]

theorem Row.set_eq_self_of {r : Row} {k : String} {v : Value}
    (hmem : k ∈ Row.keys r) (hnd : (Row.keys r).Nodup)
    (hget : Row.get r k = v) : Row.set r k v = r := by
  unfold Row.set
  have hc : (r.any fun p => p.1 == k) = true := by
    simp only [List.any_eq_true, beq_iff_eq]
    simp only [Row.keys, List.mem_map] at hmem
    rcases hmem with ⟨p, hp, hpk⟩
    exact ⟨p, hp, hpk⟩
  rw [if_pos hc]
  exact Row.map_upd_id_of_get hmem hnd hget

/-! ### Lemmas about value comparison -/

theorem charListLe_trans :
    ∀ a b c : List Char, charListLe a b → charListLe b c → charListLe a c := by
  intro a
  induction a with
  | nil =>
    intro b c h1 h2
    exact rfl
  | cons x xs ih =>
    intro b c h1 h2
    cases b with
    | nil => cases h1
    | cons y ys =>
      cases c with
      | nil => cases h2
      | cons z zs =>
        unfold charListLe at h1 h2 ⊢
        by_cases hxy : x < y
        · rw [if_pos hxy] at h1
          by_cases hyz : y < z
          · rw [if_pos (lt_trans hxy hyz)]
          · rw [if_neg hyz] at h2
            by_cases hzy : z < y
            · rw [if_pos hzy] at h2
              cases h2
            · have hyz' : y = z := le_antisymm (not_lt.mp hzy) (not_lt.mp hyz)
              rw [if_pos (hyz' ▸ hxy)]
        · rw [if_neg hxy] at h1
          by_cases hyx : y < x
          · rw [if_pos hyx] at h1
            cases h1
          · have hxy' : x = y := le_antisymm (not_lt.mp hyx) (not_lt.mp hxy)
            subst hxy'
            rw [if_neg hyx] at h1
            by_cases hyz : x < z
            · rw [if_pos hyz]
            · rw [if_neg hyz] at h2 ⊢
              by_cases hzy : z < x
              · rw [if_pos hzy] at h2
                cases h2
              · rw [if_neg hzy] at h2 ⊢
                exact ih ys zs h1 h2

theorem charListLe_total : ∀ a b : List Char, charListLe a b || charListLe b a := by
  intro a
  induction a with
  | nil =>
    intro b
    rfl
  | cons x xs ih =>
    intro b
    cases b with
    | nil => rfl
    | cons y ys =>
      unfold charListLe
      by_cases hxy : x < y
      · rw [if_pos hxy]
        rfl
      · rw [if_neg hxy]
        by_cases hyx : y < x
        · rw [if_pos hyx, if_pos hyx]
          simp
        · rw [if_neg hyx, if_neg hxy, if_neg hyx]
          exact ih ys

theorem Value.le_total' : ∀ a b : Value, a.le b || b.le a := by
  intro a b
  cases a <;> cases b <;>
    first
      | rfl
      | (simp only [Value.le, Value.rank, Bool.or_eq_true, decide_eq_true_eq]; omega)
      | exact charListLe_total _ _

theorem Value.le_trans' : ∀ a b c : Value, a.le b → b.le c → a.le c := by
  intro a b c h1 h2
  cases a <;> cases b <;> cases c <;>
    first
      | rfl
      | (simp only [Value.le, Value.rank, decide_eq_true_eq] at h1 h2 ⊢; omega)
      | exact charListLe_trans _ _ _ h1 h2

theorem rowLeId_trans : ∀ a b c : Row, rowLeId a b → rowLeId b c → rowLeId a c := by
  intro a b c h1 h2
  exact Value.le_trans' _ _ _ h2 h1

theorem rowLeId_total : ∀ a b : Row, rowLeId a b || rowLeId b a := by
  intro a b
  exact Value.le_total' _ _

theorem rowLeTags_trans : ∀ a b c : Row, rowLeTags a b → rowLeTags b c → rowLeTags a c := by
  intro a b c h1 h2
  unfold rowLeTags at h1 h2 ⊢
  by_cases e1 : (Value.le (Row.get b "count") (Row.get a "count")
      && Value.le (Row.get a "count") (Row.get b "count")) = true
  · rw [if_pos e1] at h1
    rw [Bool.and_eq_true] at e1
    by_cases e2 : (Value.le (Row.get c "count") (Row.get b "count")
        && Value.le (Row.get b "count") (Row.get c "count")) = true
    · rw [if_pos e2] at h2
      rw [Bool.and_eq_true] at e2
      rw [if_pos (by
        rw [Bool.and_eq_true]
        exact ⟨Value.le_trans' _ _ _ e2.1 e1.1, Value.le_trans' _ _ _ e1.2 e2.2⟩)]
      exact Value.le_trans' _ _ _ h1 h2
    · rw [if_neg e2] at h2
      rw [if_neg (by
        rw [Bool.and_eq_true]
        rintro ⟨hac, hca⟩
        exact e2 (by
          rw [Bool.and_eq_true]
          exact ⟨h2, Value.le_trans' _ _ _ e1.1 hca⟩))]
      exact Value.le_trans' _ _ _ h2 e1.1
  · rw [if_neg e1] at h1
    by_cases e2 : (Value.le (Row.get c "count") (Row.get b "count")
        && Value.le (Row.get b "count") (Row.get c "count")) = true
    · rw [if_pos e2] at h2
      rw [Bool.and_eq_true] at e2
      rw [if_neg (by
        rw [Bool.and_eq_true]
        rintro ⟨hac, hca⟩
        exact e1 (by
          rw [Bool.and_eq_true]
          exact ⟨h1, Value.le_trans' _ _ _ hca e2.1⟩))]
      exact Value.le_trans' _ _ _ e2.1 h1
    · rw [if_neg e2] at h2
      rw [if_neg (by
        rw [Bool.and_eq_true]
        rintro ⟨hac, hca⟩
        exact e1 (by
          rw [Bool.and_eq_true]
          exact ⟨h1, Value.le_trans' _ _ _ hca h2⟩))]
      exact Value.le_trans' _ _ _ h2 h1

theorem rowLeTags_total : ∀ a b : Row, rowLeTags a b || rowLeTags b a := by
  intro a b
  unfold rowLeTags
  by_cases eab : (Value.le (Row.get b "count") (Row.get a "count")
      && Value.le (Row.get a "count") (Row.get b "count")) = true
  · rw [if_pos eab, if_pos (by
      rw [Bool.and_eq_true] at eab ⊢
      exact ⟨eab.2, eab.1⟩)]
    exact Value.le_total' _ _
  · rw [if_neg eab, if_neg (by
      rw [Bool.and_eq_true]
      rw [Bool.and_eq_true] at eab
      rintro ⟨h1, h2⟩
      exact eab ⟨h2, h1⟩)]
    exact Value.le_total' _ _

/-! ### Lemmas about frame construction -/

theorem keys_normRow (cols : List String) (r : Row) :
    Row.keys (normRow cols r) = cols := by
  induction cols with
  | nil => rfl
  | cons c rest ih =>
    simp only [Row.keys, normRow, List.map_cons] at ih ⊢
    rw [ih]

theorem get_normRow_of_mem {cols : List String} {r : Row} {c : String}
    (h : c ∈ cols) : Row.get (normRow cols r) c = Row.get r c := by
  induction cols with
  | nil => simp at h
  | cons c0 rest ih =>
    simp only [normRow, List.map_cons, Row.get_cons]
    by_cases hc : c0 = c
    · rw [if_pos hc, hc]
    · rw [if_neg hc]
      refine ih ?_
      rcases List.mem_cons.mp h with h1 | h1
      · exact absurd h1.symm hc
      · exact h1

theorem normRow_normRow (cols : List String) (r : Row) :
    normRow cols (normRow cols r) = normRow cols r := by
  have hpt : ∀ c ∈ cols, (c, Row.get (normRow cols r) c) = (c, Row.get r c) := by
    intro c hc
    rw [get_normRow_of_mem hc]
  calc normRow cols (normRow cols r)
      = List.map (fun c => (c, Row.get (normRow cols r) c)) cols := rfl
    _ = List.map (fun c => (c, Row.get r c)) cols := List.map_congr_left hpt
    _ = normRow cols r := rfl

theorem mem_insertKeys {c : String} (r : Row) (cs : List String) :
    c ∈ insertKeys cs r ↔ c ∈ cs ∨ c ∈ Row.keys r := by
  induction r generalizing cs with
  | nil => simp [insertKeys, Row.keys]
  | cons p rest ih =>
    rw [insertKeys, ih]
    by_cases hp : p.1 ∈ cs
    · rw [if_pos hp]
      simp only [Row.keys, List.map_cons, List.mem_cons]
      constructor
      · rintro (h | h)
        · exact Or.inl h
        · exact Or.inr (Or.inr h)
      · rintro (h | h | h)
        · exact Or.inl h
        · exact Or.inl (by rw [h]; exact hp)
        · exact Or.inr h
    · rw [if_neg hp]
      simp only [Row.keys, List.map_cons, List.mem_cons, List.mem_append,
        List.mem_singleton]
      tauto

theorem insertKeys_of_sub {cs : List String} {r : Row}
    (h : ∀ k ∈ Row.keys r, k ∈ cs) : insertKeys cs r = cs := by
  induction r with
  | nil => rfl
  | cons p rest ih =>
    rw [insertKeys, if_pos (h p.1 (by simp [Row.keys]))]
    refine ih ?_
    intro k hk
    refine h k ?_
    simp only [Row.keys, List.map_cons, List.mem_cons]
    exact Or.inr (by simpa [Row.keys] using hk)

theorem insertKeys_append {cs ks : List String} {r : Row}
    (hk : Row.keys r = ks) (hnd : ks.Nodup) (hdis : ∀ k ∈ ks, k ∉ cs) :
    insertKeys cs r = cs ++ ks := by
  induction r generalizing cs ks with
  | nil =>
    subst hk
    simp [insertKeys, Row.keys]
  | cons p rest ih =>
    subst hk
    simp only [Row.keys, List.map_cons, List.nodup_cons] at hnd hdis
    rw [insertKeys, if_neg (hdis p.1 (List.mem_cons_self _ _))]
    rw [ih rfl hnd.2 (by
      intro k hkk
      simp only [List.mem_append, List.mem_singleton, not_or]
      refine ⟨hdis k (List.mem_cons_of_mem _ (by simpa [Row.keys] using hkk)), ?_⟩
      intro hke
      exact hnd.1 (by simpa [Row.keys, hke] using hkk))]
    simp [Row.keys, List.append_assoc, List.singleton_append]

theorem insertKeys_nodup {cs : List String} (r : Row) (h : cs.Nodup) :
    (insertKeys cs r).Nodup := by
  induction r generalizing cs with
  | nil => exact h
  | cons p rest ih =>
    rw [insertKeys]
    by_cases hp : p.1 ∈ cs
    · rw [if_pos hp]
      exact ih h
    · rw [if_neg hp]
      refine ih ?_
      simp [List.nodup_append, h, hp]

theorem mem_dfColsFrom {c : String} (rows : List Row) (cs : List String) :
    c ∈ dfColsFrom cs rows ↔ c ∈ cs ∨ ∃ r ∈ rows, c ∈ Row.keys r := by
  induction rows generalizing cs with
  | nil => simp [dfColsFrom]
  | cons r rest ih =>
    rw [dfColsFrom, ih, mem_insertKeys]
    simp only [List.mem_cons]
    constructor
    · rintro ((h | h) | ⟨r', hr', h⟩)
      · exact Or.inl h
      · exact Or.inr ⟨r, Or.inl rfl, h⟩
      · exact Or.inr ⟨r', Or.inr hr', h⟩
    · rintro (h | ⟨r', hr' | hr', h⟩)
      · exact Or.inl (Or.inl h)
      · exact Or.inl (Or.inr (hr' ▸ h))
      · exact Or.inr ⟨r', hr', h⟩

theorem mem_dfCols {c : String} (rows : List Row) :
    c ∈ dfCols rows ↔ ∃ r ∈ rows, c ∈ Row.keys r := by
  rw [dfCols, mem_dfColsFrom]
  simp

theorem dfColsFrom_nodup {cs : List String} (rows : List Row) (h : cs.Nodup) :
    (dfColsFrom cs rows).Nodup := by
  induction rows generalizing cs with
  | nil => exact h
  | cons r rest ih =>
    rw [dfColsFrom]
    exact ih (insertKeys_nodup r h)

theorem dfCols_nodup (rows : List Row) : (dfCols rows).Nodup :=
  dfColsFrom_nodup rows List.nodup_nil

theorem dfColsFrom_of_sub {cs : List String} {rows : List Row}
    (h : ∀ r ∈ rows, ∀ k ∈ Row.keys r, k ∈ cs) : dfColsFrom cs rows = cs := by
  induction rows with
  | nil => rfl
  | cons r rest ih =>
    rw [dfColsFrom, insertKeys_of_sub (h r (List.mem_cons_self _ _))]
    exact ih (fun r' hr' => h r' (List.mem_cons_of_mem _ hr'))

theorem dfCols_uniform {ks : List String} {rows : List Row} (hne : rows ≠ [])
    (h : ∀ r ∈ rows, Row.keys r = ks) (hnd : ks.Nodup) : dfCols rows = ks := by
  cases rows with
  | nil => exact absurd rfl hne
  | cons r rest =>
    rw [dfCols, dfColsFrom,
      insertKeys_append (h r (List.mem_cons_self _ _)) hnd (by simp),
      List.nil_append]
    exact dfColsFrom_of_sub (fun r' hr' k hk => by
      rw [h r' (List.mem_cons_of_mem _ hr')] at hk
      exact hk)

/-! ### Lemmas about sorting -/

theorem rowLeIdP_total : IsTotal Row rowLeIdP :=
  ⟨fun a b => by simpa [rowLeIdP] using rowLeId_total a b⟩

theorem rowLeIdP_trans : IsTrans Row rowLeIdP :=
  ⟨fun a b c => rowLeId_trans a b c⟩

theorem rowLeTagsP_total : IsTotal Row rowLeTagsP :=
  ⟨fun a b => by simpa [rowLeTagsP] using rowLeTags_total a b⟩

theorem rowLeTagsP_trans : IsTrans Row rowLeTagsP :=
  ⟨fun a b c => rowLeTags_trans a b c⟩

theorem sortTableDF_ok {df df' : DF} (h : sortTableDF df = .ok df') :
    df'.cols = df.cols ∧ df'.rows = List.insertionSort rowLeIdP df.rows ∧
      "id" ∈ df.cols := by
  unfold sortTableDF at h
  by_cases hid : "id" ∈ df.cols
  · rw [if_pos hid] at h
    injection h with h
    subst h
    exact ⟨rfl, rfl, hid⟩
  · rw [if_neg hid] at h
    cases h

theorem sortTagsDF_ok {df df' : DF} (h : sortTagsDF df = .ok df') :
    df'.cols = df.cols ∧ df'.rows = List.insertionSort rowLeTagsP df.rows ∧
      "count" ∈ df.cols ∧ "name" ∈ df.cols := by
  unfold sortTagsDF at h
  by_cases hc : "count" ∈ df.cols ∧ "name" ∈ df.cols
  · rw [if_pos hc] at h
    injection h with h
    subst h
    exact ⟨rfl, rfl, hc⟩
  · rw [if_neg hc] at h
    cases h

theorem sortedRows_sort_id (rs : List Row) :
    sortedRows rowLeId (List.insertionSort rowLeIdP rs) := by
  haveI := rowLeIdP_total
  haveI := rowLeIdP_trans
  exact List.sorted_insertionSort rowLeIdP rs

theorem sortedRows_sort_tags (rs : List Row) :
    sortedRows rowLeTags (List.insertionSort rowLeTagsP rs) := by
  haveI := rowLeTagsP_total
  haveI := rowLeTagsP_trans
  exact List.sorted_insertionSort rowLeTagsP rs

/-! ### Lemmas about the tally -/

theorem tallyInsert_of_not_mem {m : Tally} {t : String}
    (h : t ∉ m.map (·.1)) : tallyInsert m t = m ++ [(t, 1)] := by
  unfold tallyInsert
  rw [if_neg]
  simp only [List.any_eq_true, beq_iff_eq, not_exists, not_and]
  intro p hp hpt
  exact h (List.mem_map.mpr ⟨p, hp, hpt⟩)

theorem keys_tallyInsert_of_mem {m : Tally} {t : String}
    (h : t ∈ m.map (·.1)) : (tallyInsert m t).map (·.1) = m.map (·.1) := by
  unfold tallyInsert
  rw [if_pos]
  · rw [List.map_map]
    refine List.map_congr_left ?_
    intro p _
    by_cases hp : p.1 = t
    · simp [hp]
    · simp [hp]
  · simp only [List.any_eq_true, beq_iff_eq]
    rcases List.mem_map.mp h with ⟨p, hp, hpt⟩
    exact ⟨p, hp, hpt⟩

theorem mem_keys_tallyInsert {m : Tally} {t s : String} :
    s ∈ (tallyInsert m t).map (·.1) ↔ s ∈ m.map (·.1) ∨ s = t := by
  by_cases h : t ∈ m.map (·.1)
  · rw [keys_tallyInsert_of_mem h]
    constructor
    · exact Or.inl
    · rintro (hs | hs)
      · exact hs
      · exact hs ▸ h
  · rw [tallyInsert_of_not_mem h]
    simp

theorem mem_keys_tallyList {m : Tally} {l : List String} {s : String} :
    s ∈ (tallyList m l).map (·.1) ↔ s ∈ m.map (·.1) ∨ s ∈ l := by
  induction l generalizing m with
  | nil => simp [tallyList]
  | cons t rest ih =>
    rw [tallyList, ih, mem_keys_tallyInsert]
    simp only [List.mem_cons]
    tauto

theorem mem_keys_tallyAllFrom {m : Tally} {ls : List (List String)} {s : String} :
    s ∈ (tallyAllFrom m ls).map (·.1) ↔ s ∈ m.map (·.1) ∨ ∃ l ∈ ls, s ∈ l := by
  induction ls generalizing m with
  | nil => simp [tallyAllFrom]
  | cons l rest ih =>
    rw [tallyAllFrom, ih, mem_keys_tallyList]
    simp only [List.mem_cons]
    constructor
    · rintro ((h | h) | ⟨l', hl', h⟩)
      · exact Or.inl h
      · exact Or.inr ⟨l, Or.inl rfl, h⟩
      · exact Or.inr ⟨l', Or.inr hl', h⟩
    · rintro (h | ⟨l', hl' | hl', h⟩)
      · exact Or.inl (Or.inl h)
      · exact Or.inl (Or.inr (hl' ▸ h))
      · exact Or.inr ⟨l', hl', h⟩

theorem mem_keys_tallyAll {ls : List (List String)} {s : String} :
    s ∈ (tallyAll ls).map (·.1) ↔ ∃ l ∈ ls, s ∈ l := by
  rw [tallyAll, mem_keys_tallyAllFrom]
  simp

theorem tally_map_id_of_not_mem {m : Tally} {t : String}
    (h : t ∉ m.map (·.1)) :
    m.map (fun p => if p.1 = t then (p.1, p.2 + 1) else p) = m := by
  induction m with
  | nil => rfl
  | cons p rest ih =>
    simp only [List.map_cons, List.mem_cons, not_or] at h
    have hp : ¬ p.1 = t := fun hh => h.1 hh.symm
    simp only [List.map_cons, if_neg hp]
    rw [ih h.2]

theorem keys_nodup_tallyInsert {m : Tally} {t : String}
    (h : (m.map (·.1)).Nodup) : ((tallyInsert m t).map (·.1)).Nodup := by
  by_cases hm : t ∈ m.map (·.1)
  · rw [keys_tallyInsert_of_mem hm]
    exact h
  · rw [tallyInsert_of_not_mem hm]
    rw [List.map_append]
    simp [List.nodup_append, h, hm]

theorem sum_map_upd_of_mem {m : Tally} {t : String}
    (hm : t ∈ m.map (·.1)) (h : (m.map (·.1)).Nodup) :
    ((m.map (fun p => if p.1 = t then (p.1, p.2 + 1) else p)).map (·.2)).sum
      = (m.map (·.2)).sum + 1 := by
  induction m with
  | nil => simp at hm
  | cons p rest ih =>
    simp only [List.map_cons, List.nodup_cons] at h
    simp only [List.map_cons, List.sum_cons]
    by_cases hp : p.1 = t
    · rw [if_pos hp, tally_map_id_of_not_mem (hp ▸ h.1)]
      simp only [List.sum_cons]
      omega
    · rw [if_neg hp]
      have hm' : t ∈ rest.map (·.1) := by
        rw [List.map_cons] at hm
        rcases List.mem_cons.mp hm with h1 | h1
        · exact absurd h1.symm hp
        · exact h1
      rw [ih hm' h.2]
      omega

theorem sum_tallyInsert {m : Tally} {t : String} (h : (m.map (·.1)).Nodup) :
    ((tallyInsert m t).map (·.2)).sum = (m.map (·.2)).sum + 1 := by
  by_cases hm : t ∈ m.map (·.1)
  · unfold tallyInsert
    rw [if_pos (by
      simp only [List.any_eq_true, beq_iff_eq]
      rcases List.mem_map.mp hm with ⟨p, hp, hpt⟩
      exact ⟨p, hp, hpt⟩)]
    exact sum_map_upd_of_mem hm h
  · rw [tallyInsert_of_not_mem hm]
    simp

theorem tallyList_sum_nodup {m : Tally} (l : List String)
    (h : (m.map (·.1)).Nodup) :
    ((tallyList m l).map (·.1)).Nodup ∧
      ((tallyList m l).map (·.2)).sum = (m.map (·.2)).sum + l.length := by
  induction l generalizing m with
  | nil => simpa [tallyList] using h
  | cons t rest ih =>
    rw [tallyList]
    rcases ih (keys_nodup_tallyInsert h) with ⟨h1, h2⟩
    refine ⟨h1, ?_⟩
    rw [h2, sum_tallyInsert h]
    simp only [List.length_cons]
    omega

theorem tallyAllFrom_sum_nodup (m : Tally) (ls : List (List String))
    (h : (m.map (·.1)).Nodup) :
    ((tallyAllFrom m ls).map (·.1)).Nodup ∧
      ((tallyAllFrom m ls).map (·.2)).sum =
        (m.map (·.2)).sum + (ls.map List.length).sum := by
  induction ls generalizing m with
  | nil => simpa [tallyAllFrom] using h
  | cons l rest ih =>
    rw [tallyAllFrom]
    rcases tallyList_sum_nodup l h with ⟨h1, h2⟩
    rcases ih _ h1 with ⟨h3, h4⟩
    refine ⟨h3, ?_⟩
    rw [h4, h2]
    simp only [List.map_cons, List.sum_cons]
    omega

theorem tallyAll_sum (ls : List (List String)) :
    ((tallyAll ls).map (·.2)).sum = (ls.map List.length).sum := by
  rcases tallyAllFrom_sum_nodup [] ls (by simp) with ⟨_, h⟩
  simpa [tallyAll] using h

/-! ### Lemmas about catalog row construction -/

theorem get_buildRowDict_count (t : String) (ps : List (String × Value)) (c : Nat) :
    Row.get (buildRowDict t ps c) "count" = Value.int c :=
  Row.get_set_self _ _ _

theorem get_foldl_set_of_ne {ps : List (String × Value)} {r0 : Row} {k : String}
    (h : ∀ p ∈ ps, p.1 ≠ k) :
    Row.get (ps.foldl (fun r p => Row.set r p.1 p.2) r0) k = Row.get r0 k := by
  induction ps generalizing r0 with
  | nil => rfl
  | cons p rest ih =>
    rw [List.foldl_cons]
    rw [ih (fun q hq => h q (List.mem_cons_of_mem _ hq))]
    exact Row.get_set_ne r0 p.2 (fun hh => h p (List.mem_cons_self _ _) hh.symm)

theorem get_buildRowDict_name {t : String} {ps : List (String × Value)} {c : Nat}
    (h : ∀ p ∈ ps, p.1 ≠ "name") :
    Row.get (buildRowDict t ps c) "name" = Value.str t := by
  unfold buildRowDict
  rw [Row.get_set_ne _ _ (by decide)]
  rw [get_foldl_set_of_ne h]
  rfl

theorem buildRecalcTagRow_names_counts {pcols : List String} {cat : List Row}
    {t : String} {c : Nat} {r : Row}
    (hp : ∀ col ∈ pcols, col ≠ "name")
    (h : buildRecalcTagRow pcols cat t c = .ok r) :
    Row.get r "name" = Value.str t ∧ Row.get r "count" = Value.int c := by
  unfold buildRecalcTagRow at h
  by_cases he : pcols.isEmpty
  · rw [if_pos he] at h
    injection h with h
    subst h
    exact ⟨get_buildRowDict_name (by simp), get_buildRowDict_count _ _ _⟩
  · rw [if_neg he] at h
    cases hl : dictLookup cat "name" (Value.str t) with
    | none =>
      rw [hl] at h
      cases h
    | some row =>
      rw [hl] at h
      injection h with h
      subst h
      refine ⟨get_buildRowDict_name ?_, get_buildRowDict_count _ _ _⟩
      intro p hpm
      rcases List.mem_map.mp hpm with ⟨col, hcol, hce⟩
      exact hce ▸ hp col hcol

theorem buildRecalcTagRows_spec {pcols : List String} {cat : List Row}
    {tl : Tally} {rs : List Row}
    (hp : ∀ col ∈ pcols, col ≠ "name")
    (h : buildRecalcTagRows pcols cat tl = .ok rs) :
    rs.map (fun r => Row.get r "name") = tl.map (fun p => Value.str p.1) ∧
      rs.map (fun r => Row.get r "count") = tl.map (fun p => Value.int p.2) := by
  induction tl generalizing rs with
  | nil =>
    rw [buildRecalcTagRows] at h
    injection h with h
    subst h
    simp
  | cons q rest ih =>
    obtain ⟨t, c⟩ := q
    rw [buildRecalcTagRows] at h
    cases hb : buildRecalcTagRow pcols cat t c with
    | error e =>
      rw [hb] at h
      cases h
    | ok r =>
      rw [hb] at h
      cases hr : buildRecalcTagRows pcols cat rest with
      | error e =>
        rw [hr] at h
        cases h
      | ok rs' =>
        rw [hr] at h
        injection h with h
        subst h
        rcases buildRecalcTagRow_names_counts hp hb with ⟨h1, h2⟩
        rcases ih hr with ⟨h3, h4⟩
        simp only [List.map_cons]
        exact ⟨by rw [h1, h3], by rw [h2, h4]⟩

theorem buildRecalcTagRows_ok_of (pcols : List String) {cat : List Row}
    {tl : Tally}
    (h : ∀ p ∈ tl, ∃ r, dictLookup cat "name" (Value.str p.1) = some r) :
    ∃ rs, buildRecalcTagRows pcols cat tl = .ok rs := by
  induction tl with
  | nil => exact ⟨[], rfl⟩
  | cons q rest ih =>
    obtain ⟨t, c⟩ := q
    rcases ih (fun p hp => h p (List.mem_cons_of_mem _ hp)) with ⟨rs, hrs⟩
    rw [buildRecalcTagRows]
    by_cases he : pcols.isEmpty
    · rw [buildRecalcTagRow, if_pos he, hrs]
      exact ⟨_, rfl⟩
    · rcases h (t, c) (List.mem_cons_self _ _) with ⟨r, hr⟩
      rw [buildRecalcTagRow, if_neg he, hr, hrs]
      exact ⟨_, rfl⟩

theorem buildRecalcTagRows_keys {pcols : List String} {cat : List Row}
    {tl : Tally} {rs : List Row}
    (hp : ∀ col ∈ pcols, col ≠ "name")
    (h : buildRecalcTagRows pcols cat tl = .ok rs) :
    ∀ r ∈ rs, "name" ∈ Row.keys r ∧ "count" ∈ Row.keys r := by
  intro r hr
  have hlen : rs.map (fun r => Row.get r "name") = tl.map (fun p => Value.str p.1) :=
    (buildRecalcTagRows_spec hp h).1
  have hlen2 : rs.map (fun r => Row.get r "count") = tl.map (fun p => Value.int p.2) :=
    (buildRecalcTagRows_spec hp h).2
  constructor
  · refine Row.mem_keys_of_get_ne_null ?_
    have : Row.get r "name" ∈ tl.map (fun p => Value.str p.1) := by
      rw [← hlen]
      exact List.mem_map_of_mem _ hr
    rcases List.mem_map.mp this with ⟨p, _, hpe⟩
    rw [← hpe]
    simp
  · refine Row.mem_keys_of_get_ne_null ?_
    have : Row.get r "count" ∈ tl.map (fun p => Value.int p.2) := by
      rw [← hlen2]
      exact List.mem_map_of_mem _ hr
    rcases List.mem_map.mp this with ⟨p, _, hpe⟩
    rw [← hpe]
    simp

theorem buildRecalcTagRows_length {pcols : List String} {cat : List Row}
    {tl : Tally} {rs : List Row}
    (h : buildRecalcTagRows pcols cat tl = .ok rs) :
    rs.length = tl.length := by
  induction tl generalizing rs with
  | nil =>
    rw [buildRecalcTagRows] at h
    injection h with h
    subst h
    rfl
  | cons q rest ih =>
    obtain ⟨t, c⟩ := q
    rw [buildRecalcTagRows] at h
    cases hb : buildRecalcTagRow pcols cat t c with
    | error e =>
      rw [hb] at h
      cases h
    | ok r =>
      rw [hb] at h
      cases hr : buildRecalcTagRows pcols cat rest with
      | error e =>
        rw [hr] at h
        cases h
      | ok rs' =>
        rw [hr] at h
        injection h with h
        subst h
        simp [ih hr]

theorem buildRecalcTagRows_error {pcols : List String} {cat : List Row}
    {tl : Tally}
    (hne : pcols.isEmpty = false)
    (h : ∃ p ∈ tl, dictLookup cat "name" (Value.str p.1) = none) :
    buildRecalcTagRows pcols cat tl = .error .keyError := by
  induction tl with
  | nil => simp at h
  | cons q rest ih =>
    obtain ⟨t, c⟩ := q
    rw [buildRecalcTagRows]
    rcases h with ⟨p, hp, hnone⟩
    rcases List.mem_cons.mp hp with rfl | hmem
    · rw [buildRecalcTagRow, if_neg (by simp [hne]), hnone]
    · cases hb : buildRecalcTagRow pcols cat t c with
      | error e =>
        rw [buildRecalcTagRow] at hb
        rw [if_neg (by simp [hne])] at hb
        cases hl : dictLookup cat "name" (Value.str t) with
        | none =>
          rw [hl] at hb
          injection hb with hb
          rw [hb]
        | some r =>
          rw [hl] at hb
          cases hb
      | ok r =>
        rw [ih ⟨p, hmem, hnone⟩]

/-! ### Lemmas about scanning tag lists and cleaning rows -/

theorem Value.getTags_ok {v : Value} {l : List String} (h : v.getTags = .ok l) :
    v = Value.strList l := by
  cases v with
  | strList l2 =>
    injection h with h
    rw [h]
  | null => cases h
  | int i => cases h
  | str s => cases h

theorem getTagLists_ok_of {rows : List Row}
    (h : ∀ r ∈ rows, ∃ ts, Row.get r "tags" = Value.strList ts) :
    ∃ tls, getTagLists rows = .ok tls := by
  induction rows with
  | nil => exact ⟨[], rfl⟩
  | cons r rest ih =>
    rcases h r (List.mem_cons_self _ _) with ⟨ts, hts⟩
    rcases ih (fun r' hr' => h r' (List.mem_cons_of_mem _ hr')) with ⟨tls, htls⟩
    rw [getTagLists, hts, Value.getTags, htls]
    exact ⟨_, rfl⟩

theorem getTagLists_spec {rows : List Row} {tls : List (List String)}
    (h : getTagLists rows = .ok tls) :
    ∀ r ∈ rows, ∃ ts ∈ tls, Row.get r "tags" = Value.strList ts := by
  induction rows generalizing tls with
  | nil => simp
  | cons r rest ih =>
    rw [getTagLists] at h
    cases hg : Value.getTags (Row.get r "tags") with
    | error e =>
      rw [hg] at h
      cases h
    | ok l =>
      rw [hg] at h
      cases hr : getTagLists rest with
      | error e =>
        rw [hr] at h
        cases h
      | ok ls =>
        rw [hr] at h
        injection h with h
        subst h
        intro r' hr'
        rcases List.mem_cons.mp hr' with rfl | hmem
        · exact ⟨l, List.mem_cons_self _ _, Value.getTags_ok hg⟩
        · rcases ih hr r' hmem with ⟨ts, hts, he⟩
          exact ⟨ts, List.mem_cons_of_mem _ hts, he⟩

theorem cleanRows_spec {existing : List Value} {rows rows' : List Row}
    (h : cleanRows existing rows = .ok rows') :
    ∀ row' ∈ rows', ∃ row ∈ rows, ∃ ts, Row.get row "tags" = Value.strList ts ∧
      row' = Row.set row "tags"
        (Value.strList (ts.filter (fun t => decide (Value.str t ∈ existing)))) := by
  induction rows generalizing rows' with
  | nil =>
    rw [cleanRows] at h
    injection h with h
    subst h
    simp
  | cons r rest ih =>
    rw [cleanRows] at h
    cases hg : Value.getTags (Row.get r "tags") with
    | error e =>
      rw [hg] at h
      cases h
    | ok ts =>
      rw [hg] at h
      cases hr : cleanRows existing rest with
      | error e =>
        rw [hr] at h
        cases h
      | ok rest' =>
        rw [hr] at h
        injection h with h
        subst h
        intro row' hrow'
        rcases List.mem_cons.mp hrow' with rfl | hmem
        · exact ⟨r, List.mem_cons_self _ _, ts, Value.getTags_ok hg, rfl⟩
        · rcases ih hr row' hmem with ⟨row, hrow, ts', h1, h2⟩
          exact ⟨row, List.mem_cons_of_mem _ hrow, ts', h1, h2⟩

theorem cleanRows_eq_self {existing : List Value} {rows : List Row}
    (h : ∀ r ∈ rows, ∃ ts, Row.get r "tags" = Value.strList ts ∧
      (∀ t ∈ ts, Value.str t ∈ existing) ∧
      Row.set r "tags" (Value.strList ts) = r) :
    cleanRows existing rows = .ok rows := by
  induction rows with
  | nil => rfl
  | cons r rest ih =>
    rcases h r (List.mem_cons_self _ _) with ⟨ts, hts, hall, hset⟩
    have hfe : List.filter (fun t => decide (Value.str t ∈ existing)) ts = ts :=
      List.filter_eq_self.mpr (fun t ht => by simpa using hall t ht)
    have hrest := ih (fun r' hr' => h r' (List.mem_cons_of_mem _ hr'))
    rw [cleanRows, hts]
    simp only [Value.getTags, hrest, hfe, hset]

/-! ### Inversion lemmas for the three operations -/

theorem from_parquet_ok_inv {dfTable : DF} {dfTagsRef : Option DF} {idc tc : String}
    {pre : Value → List String} {nc : String} {pres : List String} {td : TagData}
    (h : from_parquet dfTable dfTagsRef idc tc pre nc pres = .ok td) :
    idc ∈ dfTable.cols ∧ tc ∈ dfTable.cols ∧ refNameColOk dfTagsRef nc ∧
    ∃ tagRows,
      sortTableDF (dfOfRows
        (dfTable.rows.map (scanRow idc tc pre (expectedOf dfTagsRef nc)))) =
          .ok td.df_table ∧
      buildRefTagRows pres (dfTagsRef.map DF.rows) nc
        (tallyAll (dfTable.rows.map (scanTags tc pre (expectedOf dfTagsRef nc)))) =
          .ok tagRows ∧
      sortTagsDF (dfOfRows tagRows) = .ok td.df_tags := by
  unfold from_parquet at h
  by_cases h1 : idc ∈ dfTable.cols
  · rw [if_pos h1] at h
    by_cases h2 : tc ∈ dfTable.cols
    · rw [if_pos h2] at h
      by_cases h3 : refNameColOk dfTagsRef nc
      · rw [if_pos h3] at h
        cases hs : sortTableDF (dfOfRows
            (dfTable.rows.map (scanRow idc tc pre (expectedOf dfTagsRef nc)))) with
        | error e =>
          simp only [hs] at h
          cases h
        | ok dft =>
          simp only [hs] at h
          cases hb : buildRefTagRows pres (dfTagsRef.map DF.rows) nc
              (tallyAll (dfTable.rows.map (scanTags tc pre (expectedOf dfTagsRef nc)))) with
          | error e =>
            simp only [hb] at h
            cases h
          | ok tagRows =>
            simp only [hb] at h
            cases hg : sortTagsDF (dfOfRows tagRows) with
            | error e =>
              simp only [hg] at h
              cases h
            | ok dfg =>
              simp only [hg] at h
              injection h with h
              subst h
              exact ⟨h1, h2, h3, tagRows, rfl, rfl, hg⟩
      · rw [if_neg h3] at h
        cases h
    · rw [if_neg h2] at h
      cases h
  · rw [if_neg h1] at h
    cases h

theorem recalculate_tags_ok_inv {td s td' : TagData}
    (h : recalculate_tags td = .ok (s, td')) :
    ∃ tls tagRows,
      getTagLists td.df_table.rows = .ok tls ∧
      buildRecalcTagRows (preservedCols td.df_tags.cols) td.df_tags.rows
        (tallyAll tls) = .ok tagRows ∧
      sortTagsDF (dfOfRows tagRows) = .ok s.df_tags ∧
      s.df_table = td.df_table ∧ td' = s := by
  unfold recalculate_tags at h
  cases h1 : getTagLists td.df_table.rows with
  | error e =>
    simp only [h1] at h
    cases h
  | ok tls =>
    simp only [h1] at h
    cases h2 : buildRecalcTagRows (preservedCols td.df_tags.cols) td.df_tags.rows
        (tallyAll tls) with
    | error e =>
      simp only [h2] at h
      cases h
    | ok tagRows =>
      simp only [h2] at h
      cases h3 : sortTagsDF (dfOfRows tagRows) with
      | error e =>
        simp only [h3] at h
        cases h
      | ok dfg =>
        simp only [h3] at h
        injection h with h
        injection h with ha hb
        subst ha
        subst hb
        exact ⟨tls, tagRows, rfl, h2, h3, rfl, rfl⟩

theorem clean_tags_in_table_ok_inv {td : TagData} {recalc : Bool} {s td' : TagData}
    (h : clean_tags_in_table td recalc = .ok (s, td')) :
    s = td ∧ "name" ∈ td.df_tags.cols ∧
    ∃ rows dft,
      cleanRows (td.df_tags.rows.map (fun r => Row.get r "name"))
        td.df_table.rows = .ok rows ∧
      sortTableDF (dfOfRows rows) = .ok dft ∧
      ((recalc = false ∧ td' = ⟨dft, td.df_tags⟩) ∨
       (recalc = true ∧ ∃ s2, recalculate_tags ⟨dft, td.df_tags⟩ = .ok (s2, td'))) := by
  unfold clean_tags_in_table at h
  by_cases h1 : "name" ∈ td.df_tags.cols
  · rw [if_pos h1] at h
    cases h2 : cleanRows (td.df_tags.rows.map (fun r => Row.get r "name"))
        td.df_table.rows with
    | error e =>
      simp only [h2] at h
      cases h
    | ok rows =>
      simp only [h2] at h
      cases h3 : sortTableDF (dfOfRows rows) with
      | error e =>
        simp only [h3] at h
        cases h
      | ok dft =>
        simp only [h3] at h
        cases recalc with
        | false =>
          simp only [Bool.false_eq_true, if_false] at h
          injection h with h
          injection h with ha hb
          subst ha
          subst hb
          exact ⟨rfl, h1, rows, dft, rfl, h3, Or.inl ⟨rfl, rfl⟩⟩
        | true =>
          simp only [if_true] at h
          cases h4 : recalculate_tags ⟨dft, td.df_tags⟩ with
          | error e =>
            simp only [h4] at h
            cases h
          | ok pr =>
            simp only [h4] at h
            obtain ⟨s2, r2⟩ := pr
            injection h with h
            injection h with ha hb
            subst ha
            subst hb
            exact ⟨rfl, h1, rows, dft, rfl, h3, Or.inr ⟨rfl, s2, h4⟩⟩
  · rw [if_neg h1] at h
    cases h

/-! ### Remaining helper lemmas -/

theorem preservedCols_spec {cols : List String} :
    ∀ c ∈ preservedCols cols, c ≠ "name" ∧ c ≠ "count" := by
  intro c hc
  unfold preservedCols at hc
  rcases List.mem_filter.mp hc with ⟨_, hf⟩
  simp only [Bool.and_eq_true, Bool.not_eq_eq_eq_not, Bool.not_true, beq_eq_false_iff_ne,
    ne_eq] at hf
  exact hf

theorem dictLookup_isSome_of {rows : List Row} {c : String} {v : Value}
    (h : ∃ r ∈ rows, Row.get r c = v) : ∃ r, dictLookup rows c v = some r := by
  unfold dictLookup
  rcases h with ⟨r, hr, hv⟩
  have hex : ∃ x ∈ rows.reverse, (fun r => decide (Row.get r c = v)) x = true :=
    ⟨r, List.mem_reverse.mpr hr, by simp [hv]⟩
  rcases Option.isSome_iff_exists.mp (List.find?_isSome.mpr hex) with ⟨r', hr'⟩
  exact ⟨r', hr'⟩

theorem Row.keys_map_upd (r : Row) (k : String) (v : Value) :
    Row.keys (r.map (fun p => if p.1 = k then (k, v) else p)) = Row.keys r := by
  induction r with
  | nil => rfl
  | cons p rest ih =>
    simp only [Row.keys, List.map_cons] at ih ⊢
    by_cases hpk : p.1 = k
    · rw [if_pos hpk, ih, hpk]
    · rw [if_neg hpk, ih]

theorem Row.mem_keys_set_of_mem {r : Row} {k k' : String} {v : Value}
    (h : k' ∈ Row.keys r) : k' ∈ Row.keys (Row.set r k v) := by
  unfold Row.set
  by_cases hany : r.any (fun p => p.1 == k)
  · rw [if_pos hany, Row.keys_map_upd]
    exact h
  · rw [if_neg hany]
    simp only [Row.keys, List.map_append, List.mem_append]
    exact Or.inl h

theorem clean_tags_in_table_table {td : TagData} {rc : Bool} {s td' : TagData}
    (h : clean_tags_in_table td rc = .ok (s, td')) :
    ∃ rows dft, cleanRows (td.df_tags.rows.map (fun r => Row.get r "name"))
        td.df_table.rows = .ok rows ∧
      sortTableDF (dfOfRows rows) = .ok dft ∧ td'.df_table = dft := by
  rcases clean_tags_in_table_ok_inv h with ⟨_, _, rows, dft, hcr, hsort, hrest⟩
  refine ⟨rows, dft, hcr, hsort, ?_⟩
  rcases hrest with ⟨_, rfl⟩ | ⟨_, s2, hre⟩
  · rfl
  · rcases recalculate_tags_ok_inv hre with ⟨_, _, _, _, _, h5, h6⟩
    rw [h6]
    exact h5

/-! ### The claims -/

/-- C8: Ingestion fails with a SchemaError (the RuntimeError of data.py
lines 37-44, raised before any scanning, so no partial store or catalog
exists) whenever the configured id or tags column is absent from the
input table's columns, or a reference tag list is given that lacks the
configured name column. -/
theorem c8_schema_error (dfTable : DF) (dfTagsRef : Option DF) (idc tc : String)
    (pre : Value → List String) (nc : String) (pres : List String)
    (h : idc ∉ dfTable.cols ∨ tc ∉ dfTable.cols ∨
      (∃ d, dfTagsRef = some d ∧ nc ∉ d.cols)) :
    from_parquet dfTable dfTagsRef idc tc pre nc pres = .error .schemaError := by
  unfold from_parquet
  by_cases h1 : idc ∈ dfTable.cols
  · rw [if_pos h1]
    by_cases h2 : tc ∈ dfTable.cols
    · rw [if_pos h2]
      rcases h with h | h | ⟨d, hd, hnc⟩
      · exact absurd h1 h
      · exact absurd h2 h
      · subst hd
        rw [if_neg (by simpa [refNameColOk] using hnc)]
    · rw [if_neg h2]
  · rw [if_neg h1]

/-- Witness for C8 at a concrete input: the tags column is missing. -/
theorem c8_schema_error_witness :
    from_parquet ⟨["id"], []⟩ none "id" "tags" preId "name" [] =
      .error .schemaError :=
  c8_schema_error ⟨["id"], []⟩ none "id" "tags" preId "name" []
    (Or.inr (Or.inl (by decide)))

/-- C9 counterexample: recalculate_tags mutates the TagData it was
invoked on — data.py line 98 reassigns self.df_tags — so the post-state
of the invoked object differs from its pre-state. -/
theorem c9_counterexample :
    ∃ s td' : TagData, recalculate_tags c9td = .ok (s, td') ∧ s ≠ c9td := by
  refine ⟨⟨c9td.df_table, c9cat1⟩, ⟨c9td.df_table, c9cat1⟩, by decide, by decide⟩

/-- C9 amended: each transformation builds new structures and leaves the
input store and every already-built frame intact; clean does not mutate
the TagData it is invoked on, while recalculate_tags additionally rebinds
the invoked TagData's df_tags field to the freshly built catalog, so its
post-state equals the returned TagData (store unchanged). -/
theorem c9_no_mutation_amended :
    (∀ td s td' : TagData, recalculate_tags td = .ok (s, td') →
      s.df_table = td.df_table ∧ s = td') ∧
    (∀ (td : TagData) (rc : Bool) (s td' : TagData),
      clean_tags_in_table td rc = .ok (s, td') → s = td) := by
  constructor
  · intro td s td' h
    rcases recalculate_tags_ok_inv h with ⟨_, _, _, _, _, h5, h6⟩
    exact ⟨h5, h6.symm⟩
  · intro td rc s td' h
    exact (clean_tags_in_table_ok_inv h).1

/-- Witness for the amended C9 at concrete inputs. -/
theorem c9_no_mutation_amended_witness :
    ((⟨c9td.df_table, c9cat1⟩ : TagData).df_table = c9td.df_table ∧
      (⟨c9td.df_table, c9cat1⟩ : TagData) = ⟨c9td.df_table, c9cat1⟩) ∧
    c9td = c9td :=
  ⟨c9_no_mutation_amended.1 c9td ⟨c9td.df_table, c9cat1⟩ ⟨c9td.df_table, c9cat1⟩
      (by decide),
   c9_no_mutation_amended.2 c9td true c9td ⟨c9td.df_table, c9cat1⟩ (by decide)⟩

/-- C10: an empty scan result makes the sort of the empty frame raise a
KeyError instead of returning an empty store or catalog: ingestion of a
zero-record table, clean of an empty store, and recalculation over a
store with zero tag occurrences all fail with KeyError. -/
theorem c10_empty_scan_errors :
    (∀ (cols : List String) (dfTagsRef : Option DF) (idc tc : String)
        (pre : Value → List String) (nc : String) (pres : List String),
      idc ∈ cols → tc ∈ cols → refNameColOk dfTagsRef nc →
      from_parquet ⟨cols, []⟩ dfTagsRef idc tc pre nc pres = .error .keyError) ∧
    (∀ (td : TagData) (rc : Bool), td.df_table.rows = [] →
      "name" ∈ td.df_tags.cols →
      clean_tags_in_table td rc = .error .keyError) ∧
    (∀ (td : TagData) (tls : List (List String)),
      getTagLists td.df_table.rows = .ok tls → tallyAll tls = [] →
      recalculate_tags td = .error .keyError) := by
  refine ⟨?_, ?_, ?_⟩
  · intro cols dfTagsRef idc tc pre nc pres h1 h2 h3
    unfold from_parquet
    rw [if_pos h1, if_pos h2, if_pos h3]
    rfl
  · intro td rc hrows hname
    unfold clean_tags_in_table
    rw [if_pos hname, hrows]
    rfl
  · intro td tls hscan htally
    unfold recalculate_tags
    rw [hscan]
    simp only [htally]
    rfl

/-- Witness for C10 at concrete inputs. -/
theorem c10_empty_scan_errors_witness :
    from_parquet ⟨["id", "tags"], []⟩ none "id" "tags" preId "name" [] =
        .error .keyError ∧
    clean_tags_in_table ⟨⟨[], []⟩, ⟨["name", "count"], []⟩⟩ false =
        .error .keyError ∧
    recalculate_tags ⟨⟨["id", "tags"],
        [[("id", Value.int 1), ("tags", Value.strList [])]]⟩,
      ⟨["name", "count"], []⟩⟩ = .error .keyError :=
  ⟨c10_empty_scan_errors.1 ["id", "tags"] none "id" "tags" preId "name" []
      (by decide) (by decide) trivial,
   c10_empty_scan_errors.2.1 ⟨⟨[], []⟩, ⟨["name", "count"], []⟩⟩ false rfl (by decide),
   c10_empty_scan_errors.2.2 ⟨⟨["id", "tags"],
        [[("id", Value.int 1), ("tags", Value.strList [])]]⟩,
      ⟨["name", "count"], []⟩⟩ [[]] (by decide) rfl⟩

/-- C4: for every record in the store returned by clean (with or without
recalculation), every tag in that record's tag list belongs to the name
set of the catalog that was input to the clean operation. -/
theorem c4_subset_law (td : TagData) (rc : Bool) (s td' : TagData)
    (h : clean_tags_in_table td rc = .ok (s, td')) :
    ∀ row ∈ td'.df_table.rows, ∀ ts, Row.get row "tags" = Value.strList ts →
      ∀ t ∈ ts, Value.str t ∈ td.df_tags.rows.map (fun r => Row.get r "name") := by
  rcases clean_tags_in_table_table h with ⟨rows, dft, hcr, hsort, htable⟩
  intro row hrow ts hts t ht
  rw [htable] at hrow
  rcases sortTableDF_ok hsort with ⟨hcols, hrows, hid⟩
  rw [hrows] at hrow
  rw [List.mem_insertionSort] at hrow
  simp only [dfOfRows] at hrow
  rcases List.mem_map.mp hrow with ⟨row0, hrow0, hnorm⟩
  subst hnorm
  have htagsmem : "tags" ∈ dfCols rows := by
    have hk : "tags" ∈ Row.keys (normRow (dfCols rows) row0) :=
      Row.mem_keys_of_get_ne_null (by rw [hts]; intro hh; cases hh)
    rwa [keys_normRow] at hk
  rw [get_normRow_of_mem htagsmem] at hts
  rcases cleanRows_spec hcr row0 hrow0 with ⟨orig, _, ts0, _, hset⟩
  rw [hset, Row.get_set_self] at hts
  injection hts with hts
  rw [← hts] at ht
  rcases List.mem_filter.mp ht with ⟨_, hdec⟩
  simpa using hdec

/-- Witness for C4 at a concrete input. -/
theorem c4_subset_law_witness :
    Value.str "x" ∈ c9td.df_tags.rows.map (fun r => Row.get r "name") :=
  c4_subset_law c9td true c9td ⟨c9td.df_table, c9cat1⟩ (by decide)
    [("id", Value.int 1), ("tags", Value.strList ["x"])] (by decide)
    ["x"] (by decide) "x" (by decide)

/-- C5: every record store materialized by ingestion or by clean is
sorted by id descending, and every tag catalog materialized by ingestion
or by recalculation is sorted by count descending, ties broken by name
ascending. -/
theorem c5_ordering :
    (∀ (dfTable : DF) (dfTagsRef : Option DF) (idc tc : String)
        (pre : Value → List String) (nc : String) (pres : List String) (td : TagData),
      from_parquet dfTable dfTagsRef idc tc pre nc pres = .ok td →
      sortedRows rowLeId td.df_table.rows ∧ sortedRows rowLeTags td.df_tags.rows) ∧
    (∀ (td : TagData) (rc : Bool) (s td' : TagData),
      clean_tags_in_table td rc = .ok (s, td') →
      sortedRows rowLeId td'.df_table.rows) ∧
    (∀ (td s td' : TagData), recalculate_tags td = .ok (s, td') →
      sortedRows rowLeTags td'.df_tags.rows) := by
  refine ⟨?_, ?_, ?_⟩
  · intro dfTable dfTagsRef idc tc pre nc pres td h
    rcases from_parquet_ok_inv h with ⟨_, _, _, tagRows, hs, hb, hg⟩
    constructor
    · rw [(sortTableDF_ok hs).2.1]
      exact sortedRows_sort_id _
    · rw [(sortTagsDF_ok hg).2.1]
      exact sortedRows_sort_tags _
  · intro td rc s td' h
    rcases clean_tags_in_table_table h with ⟨rows, dft, _, hsort, htable⟩
    rw [htable, (sortTableDF_ok hsort).2.1]
    exact sortedRows_sort_id _
  · intro td s td' h
    rcases recalculate_tags_ok_inv h with ⟨_, tagRows, _, _, hg, _, h6⟩
    rw [h6, (sortTagsDF_ok hg).2.1]
    exact sortedRows_sort_tags _

/-- Witness for C5 at concrete inputs. -/
theorem c5_ordering_witness :
    (sortedRows rowLeId tdAout.df_table.rows ∧
      sortedRows rowLeTags tdAout.df_tags.rows) ∧
    sortedRows rowLeId (⟨c9td.df_table, c9cat1⟩ : TagData).df_table.rows ∧
    sortedRows rowLeTags (⟨c9td.df_table, c9cat1⟩ : TagData).df_tags.rows :=
  ⟨c5_ordering.1 tblA (some refA) "id" "tags" preId "name" [] tdAout (by decide),
   c5_ordering.2.1 c9td true c9td ⟨c9td.df_table, c9cat1⟩ (by decide),
   c5_ordering.2.2 c9td ⟨c9td.df_table, c9cat1⟩ ⟨c9td.df_table, c9cat1⟩ (by decide)⟩

/-- C3: after a successful recalculation, the counts of the new catalog
sum to the total number of (record, tag-occurrence) pairs of the scanned
store, a tag repeated in one record counting once per occurrence. -/
theorem c3_count_conservation (td s td' : TagData) (tls : List (List String))
    (h : recalculate_tags td = .ok (s, td'))
    (hscan : getTagLists td.df_table.rows = .ok tls) :
    (td'.df_tags.rows.map (fun r => valNat (Row.get r "count"))).sum
      = (tls.map List.length).sum := by
  rcases recalculate_tags_ok_inv h with ⟨tls2, tagRows, h1, h2, h3, h5, h6⟩
  rw [hscan] at h1
  injection h1 with h1
  subst h1
  rcases sortTagsDF_ok h3 with ⟨hcols, hrows, hcount, hname⟩
  rw [h6, hrows]
  have hperm : List.Perm
      ((List.insertionSort rowLeTagsP (dfOfRows tagRows).rows).map
        (fun r => valNat (Row.get r "count")))
      (((dfOfRows tagRows).rows).map (fun r => valNat (Row.get r "count"))) :=
    (List.perm_insertionSort rowLeTagsP _).map _
  rw [hperm.sum_eq]
  have hcount' : "count" ∈ dfCols tagRows := hcount
  have hnorm : ((dfOfRows tagRows).rows).map (fun r => valNat (Row.get r "count"))
      = tagRows.map (fun r => valNat (Row.get r "count")) := by
    simp only [dfOfRows, List.map_map]
    refine List.map_congr_left ?_
    intro r _
    show valNat (Row.get (normRow (dfCols tagRows) r) "count") = _
    rw [get_normRow_of_mem hcount']
  rw [hnorm]
  have hsp := (buildRecalcTagRows_spec
    (fun c hc => (preservedCols_spec c hc).1) h2).2
  have hmap : tagRows.map (fun r => valNat (Row.get r "count"))
      = (tallyAll tls).map (fun p => p.2) := by
    have : tagRows.map (fun r => valNat (Row.get r "count"))
        = (tagRows.map (fun r => Row.get r "count")).map valNat := by
      rw [List.map_map]
      rfl
    rw [this, hsp, List.map_map]
    refine List.map_congr_left ?_
    intro p _
    show valNat (Value.int p.2) = p.2
    simp [valNat]
  rw [hmap, tallyAll_sum]

/-- Witness for C3 at a concrete input. -/
theorem c3_count_conservation_witness :
    ((⟨c9td.df_table, c9cat1⟩ : TagData).df_tags.rows.map
      (fun r => valNat (Row.get r "count"))).sum = ([["x"]].map List.length).sum :=
  c3_count_conservation c9td ⟨c9td.df_table, c9cat1⟩ ⟨c9td.df_table, c9cat1⟩
    [["x"]] (by decide) (by decide)

theorem get_normRow_eq_null_of_not_mem {cols : List String} {r : Row} {c : String}
    (h : c ∉ cols) : Row.get (normRow cols r) c = Value.null := by
  by_contra hne
  refine h ?_
  rw [← keys_normRow cols r]
  exact Row.mem_keys_of_get_ne_null hne

theorem Row.get_eq_null_of_not_keys {r : Row} {c : String}
    (h : c ∉ Row.keys r) : Row.get r c = Value.null := by
  by_contra hne
  exact h (Row.mem_keys_of_get_ne_null hne)

/-- C6 counterexample: the input record of c6tbl carries the extra field
with value E, but ingestion keeps only id and tags (data.py line 62), so
no output record carries it — extra fields are not preserved. -/
theorem c6_counterexample :
    from_parquet c6tbl none "id" "tags" preId "name" [] = .ok c6out ∧
    "extra" ∈ c6tbl.cols ∧
    Row.get (c6tbl.rows.headD []) "extra" = Value.str "E" ∧
    ∀ row ∈ c6out.df_table.rows, "extra" ∉ Row.keys row := by
  exact ⟨by decide, by decide, by decide, by decide⟩

/-- C6 amended: ingestion produces records holding exactly the fields id
and tags, dropping every other input field; clean then preserves each
record's fields other than tags verbatim. -/
theorem c6_frame_amended :
    (∀ (dfTable : DF) (dfTagsRef : Option DF) (idc tc : String)
        (pre : Value → List String) (nc : String) (pres : List String) (td : TagData),
      from_parquet dfTable dfTagsRef idc tc pre nc pres = .ok td →
      ∀ row ∈ td.df_table.rows, Row.keys row = ["id", "tags"]) ∧
    (∀ (td : TagData) (rc : Bool) (s td' : TagData),
      clean_tags_in_table td rc = .ok (s, td') →
      ∀ row' ∈ td'.df_table.rows, ∃ row ∈ td.df_table.rows,
        ∀ c : String, c ≠ "tags" → Row.get row' c = Row.get row c) := by
  constructor
  · intro dfTable dfTagsRef idc tc pre nc pres td h row hrow
    rcases from_parquet_ok_inv h with ⟨_, _, _, _, hs, _, _⟩
    rcases sortTableDF_ok hs with ⟨_, hrows, hid⟩
    rw [hrows, List.mem_insertionSort] at hrow
    simp only [dfOfRows] at hrow
    rcases List.mem_map.mp hrow with ⟨r0, hr0, hnorm⟩
    subst hnorm
    rw [keys_normRow]
    refine dfCols_uniform (List.ne_nil_of_mem hr0) ?_ (by decide)
    intro r hr
    rcases List.mem_map.mp hr with ⟨raw, _, hre⟩
    rw [← hre]
    rfl
  · intro td rc s td' h row' hrow'
    rcases clean_tags_in_table_table h with ⟨rows, dft, hcr, hsort, htable⟩
    rw [htable] at hrow'
    rcases sortTableDF_ok hsort with ⟨_, hrows, hid⟩
    rw [hrows, List.mem_insertionSort] at hrow'
    simp only [dfOfRows] at hrow'
    rcases List.mem_map.mp hrow' with ⟨r0, hr0, hnorm⟩
    subst hnorm
    rcases cleanRows_spec hcr r0 hr0 with ⟨row, hrowmem, ts, hts, rfl⟩
    refine ⟨row, hrowmem, ?_⟩
    intro c hc
    by_cases hcin : c ∈ dfCols rows
    · rw [get_normRow_of_mem hcin, Row.get_set_ne _ _ hc]
    · rw [get_normRow_eq_null_of_not_mem hcin]
      rw [Row.get_eq_null_of_not_keys (fun hkr =>
        hcin ((mem_dfCols rows).mpr ⟨_, hr0, Row.mem_keys_set_of_mem hkr⟩))]

/-- Witness for the amended C6 at concrete inputs. -/
theorem c6_frame_amended_witness :
    Row.keys [("id", Value.int 1), ("tags", Value.strList ["a"])] = ["id", "tags"] ∧
    ∃ row ∈ c9td.df_table.rows, ∀ c : String, c ≠ "tags" →
      Row.get [("id", Value.int 1), ("tags", Value.strList ["x"])] c = Row.get row c :=
  ⟨c6_frame_amended.1 c6tbl none "id" "tags" preId "name" [] c6out (by decide)
      [("id", Value.int 1), ("tags", Value.strList ["a"])] (by decide),
   c6_frame_amended.2 c9td true c9td ⟨c9td.df_table, c9cat1⟩ (by decide)
      [("id", Value.int 1), ("tags", Value.strList ["x"])] (by decide)⟩

/-- C7 counterexample: recalculation over a store whose tag x has no
entry in the catalog succeeds without any LookupError when the catalog
has no preserved columns — the dict comprehension at data.py line 94 is
empty, so d_tags[tag] is never evaluated — and it silently produces an
entry for x. -/
theorem c7_counterexample :
    ∃ s td' : TagData, recalculate_tags c7td = .ok (s, td') ∧
      preservedCols c7td.df_tags.cols = [] ∧
      dictLookup c7td.df_tags.rows "name" (Value.str "x") = none ∧
      Value.str "x" ∈ td'.df_tags.rows.map (fun r => Row.get r "name") := by
  refine ⟨⟨c7td.df_table, ⟨["name", "count"],
      [[("name", Value.str "x"), ("count", Value.int 1)]]⟩⟩,
    ⟨c7td.df_table, ⟨["name", "count"],
      [[("name", Value.str "x"), ("count", Value.int 1)]]⟩⟩,
    by decide, by decide, by decide, by decide⟩

/-- C7 amended: when the input catalog has at least one preserved column
besides name and count, recalculation over a store that tallies a name
with no catalog entry fails with a KeyError (a LookupError in Python);
with no preserved columns the lookup is skipped entirely and the missing
name silently receives a new entry. -/
theorem c7_lookup_error_amended (td : TagData) (tls : List (List String)) (t : String)
    (hpres : preservedCols td.df_tags.cols ≠ [])
    (hscan : getTagLists td.df_table.rows = .ok tls)
    (ht : t ∈ (tallyAll tls).map (fun p => p.1))
    (hmiss : dictLookup td.df_tags.rows "name" (Value.str t) = none) :
    recalculate_tags td = .error .keyError := by
  unfold recalculate_tags
  simp only [hscan]
  have hne : (preservedCols td.df_tags.cols).isEmpty = false := by
    cases hp2 : preservedCols td.df_tags.cols with
    | nil => exact absurd hp2 hpres
    | cons a l => rfl
  rcases List.mem_map.mp ht with ⟨p, hp, hpt⟩
  rw [buildRecalcTagRows_error hne ⟨p, hp, by rw [hpt]; exact hmiss⟩]

/-- Witness for the amended C7 at a concrete input. -/
theorem c7_lookup_error_amended_witness :
    recalculate_tags c7td2 = .error .keyError :=
  c7_lookup_error_amended c7td2 [["x"]] "x" (by decide) (by decide) (by decide)
    (by decide)

theorem normRow_scanRow (idc tc : String) (pre : Value → List String)
    (expected : Option (List Value)) (raw : Row) :
    normRow ["id", "tags"] (scanRow idc tc pre expected raw) =
      scanRow idc tc pre expected raw := rfl

/-- C1: with a reference list supplied, the ingested store's rows are a
permutation (the id-descending re-sort) of the scanned records, each
holding only the preprocessed raw tags filtered to the reference names
with relative order preserved; dropped tags never enter the count tally;
hence every tag in any output record belongs to the reference name set. -/
theorem c1_reference_filtering (dfTable refDF : DF) (idc tc : String)
    (pre : Value → List String) (nc : String) (pres : List String) (td : TagData)
    (h : from_parquet dfTable (some refDF) idc tc pre nc pres = .ok td) :
    List.Perm td.df_table.rows
      (dfTable.rows.map (scanRow idc tc pre (expectedOf (some refDF) nc))) ∧
    (∀ p ∈ tallyAll (dfTable.rows.map (scanTags tc pre (expectedOf (some refDF) nc))),
      Value.str p.1 ∈ refDF.rows.map (fun r => Row.get r nc)) ∧
    (∀ row ∈ td.df_table.rows, ∀ ts, Row.get row "tags" = Value.strList ts →
      ∀ t ∈ ts, Value.str t ∈ refDF.rows.map (fun r => Row.get r nc)) := by
  rcases from_parquet_ok_inv h with ⟨_, _, _, _, hs, _, _⟩
  rcases sortTableDF_ok hs with ⟨_, hrows, hid⟩
  have hscne : dfTable.rows.map (scanRow idc tc pre (expectedOf (some refDF) nc)) ≠ [] := by
    intro hcon
    have hid' : "id" ∈ dfCols
        (dfTable.rows.map (scanRow idc tc pre (expectedOf (some refDF) nc))) := hid
    rw [hcon] at hid'
    cases hid'
  have hcolsu : dfCols (dfTable.rows.map (scanRow idc tc pre (expectedOf (some refDF) nc)))
      = ["id", "tags"] := by
    refine dfCols_uniform hscne ?_ (by decide)
    intro r hr
    rcases List.mem_map.mp hr with ⟨raw, _, hre⟩
    rw [← hre]
    rfl
  have hmapid : (dfTable.rows.map (scanRow idc tc pre (expectedOf (some refDF) nc))).map
        (normRow ["id", "tags"])
      = dfTable.rows.map (scanRow idc tc pre (expectedOf (some refDF) nc)) := by
    rw [List.map_map]
    refine List.map_congr_left ?_
    intro raw _
    exact normRow_scanRow idc tc pre _ raw
  have hdfrows : (dfOfRows (dfTable.rows.map
        (scanRow idc tc pre (expectedOf (some refDF) nc)))).rows
      = dfTable.rows.map (scanRow idc tc pre (expectedOf (some refDF) nc)) := by
    simp only [dfOfRows]
    rw [hcolsu]
    exact hmapid
  refine ⟨?_, ?_, ?_⟩
  · rw [hrows, hdfrows]
    exact List.perm_insertionSort _ _
  · intro p hp
    have hkey : p.1 ∈ (tallyAll (dfTable.rows.map
        (scanTags tc pre (expectedOf (some refDF) nc)))).map (fun q => q.1) :=
      List.mem_map_of_mem _ hp
    rcases mem_keys_tallyAll.mp hkey with ⟨l, hl, htl⟩
    rcases List.mem_map.mp hl with ⟨raw, _, hre⟩
    rw [← hre] at htl
    simp only [scanTags, expectedOf, Option.map_some'] at htl
    rcases List.mem_filter.mp htl with ⟨_, hdec⟩
    simpa using hdec
  · intro row hrow ts hts t ht
    rw [hrows, List.mem_insertionSort, hdfrows] at hrow
    rcases List.mem_map.mp hrow with ⟨raw, _, hre⟩
    rw [← hre] at hts
    have hgt : Row.get (scanRow idc tc pre (expectedOf (some refDF) nc) raw) "tags"
        = Value.strList (scanTags tc pre (expectedOf (some refDF) nc) raw) := rfl
    rw [hgt] at hts
    injection hts with hts
    rw [← hts] at ht
    simp only [scanTags, expectedOf, Option.map_some'] at ht
    rcases List.mem_filter.mp ht with ⟨_, hdec⟩
    simpa using hdec

/-- Witness for C1 at the end-to-end example of the specification. -/
theorem c1_reference_filtering_witness :
    List.Perm tdAout.df_table.rows
      (tblA.rows.map (scanRow "id" "tags" preId (expectedOf (some refA) "name"))) ∧
    (∀ p ∈ tallyAll (tblA.rows.map (scanTags "tags" preId (expectedOf (some refA) "name"))),
      Value.str p.1 ∈ refA.rows.map (fun r => Row.get r "name")) ∧
    (∀ row ∈ tdAout.df_table.rows, ∀ ts, Row.get row "tags" = Value.strList ts →
      ∀ t ∈ ts, Value.str t ∈ refA.rows.map (fun r => Row.get r "name")) :=
  c1_reference_filtering tblA refA "id" "tags" preId "name" [] tdAout (by decide)

/-- C2: cleaning with recalculation is idempotent on the record store:
when a first clean-with-recalculation succeeds, cleaning its result again
with recalculation also succeeds and yields an equal record store — the
second clean's filter keeps every tag (the recalculated catalog's names
are exactly the tags occurring in the cleaned store) and re-sorting the
already sorted store is the identity. -/
theorem c2_clean_idempotent (td s td1 : TagData)
    (h : clean_tags_in_table td true = .ok (s, td1)) :
    ∃ s2 td2, clean_tags_in_table td1 true = .ok (s2, td2) ∧
      td2.df_table = td1.df_table := by
  rcases clean_tags_in_table_ok_inv h with ⟨_, _, rows, dft, hcr, hsort, hrest⟩
  rcases hrest with ⟨hfalse, -⟩ | ⟨-, s2p, hre⟩
  · exact absurd hfalse (by decide)
  rcases recalculate_tags_ok_inv hre with ⟨tls, tagRows, h1, h2, h3, h5, h6⟩
  have h1' : getTagLists dft.rows = .ok tls := h1
  have h2' : buildRecalcTagRows (preservedCols td.df_tags.cols) td.df_tags.rows
      (tallyAll tls) = .ok tagRows := h2
  have h3' : sortTagsDF (dfOfRows tagRows) = .ok td1.df_tags := by
    rw [h6]
    exact h3
  have htd1t : td1.df_table = dft := by
    rw [h6]
    exact h5
  rcases sortTableDF_ok hsort with ⟨hdftcols, hdftrows, hid⟩
  rcases sortTagsDF_ok h3' with ⟨hgcols, hgrows, hcount, hname⟩
  have hcount' : "count" ∈ dfCols tagRows := hcount
  have hname' : "name" ∈ dfCols tagRows := hname
  have hmemdft : ∀ r ∈ dft.rows, ∃ r0 ∈ rows, r = normRow (dfCols rows) r0 := by
    intro r hr
    rw [hdftrows, List.mem_insertionSort] at hr
    simp only [dfOfRows] at hr
    rcases List.mem_map.mp hr with ⟨r0, hr0, hnorm⟩
    exact ⟨r0, hr0, hnorm.symm⟩
  have hnodup : (dfCols rows).Nodup := dfCols_nodup rows
  have hkeys : ∀ r ∈ dft.rows, Row.keys r = dfCols rows := by
    intro r hr
    rcases hmemdft r hr with ⟨r0, _, rfl⟩
    exact keys_normRow _ _
  have hpcols : ∀ c ∈ preservedCols td.df_tags.cols, c ≠ "name" :=
    fun c hc => (preservedCols_spec c hc).1
  have hnames : tagRows.map (fun r => Row.get r "name")
      = (tallyAll tls).map (fun p => Value.str p.1) :=
    (buildRecalcTagRows_spec hpcols h2').1
  have hexist : ∀ t ∈ (tallyAll tls).map (fun p => p.1),
      Value.str t ∈ td1.df_tags.rows.map (fun r => Row.get r "name") := by
    intro t ht
    rcases List.mem_map.mp ht with ⟨p, hp, hpt⟩
    have hmt : Value.str t ∈ tagRows.map (fun r => Row.get r "name") := by
      rw [hnames]
      exact List.mem_map.mpr ⟨p, hp, by rw [hpt]⟩
    rcases List.mem_map.mp hmt with ⟨tr, htr, htre⟩
    refine List.mem_map.mpr ⟨normRow (dfCols tagRows) tr, ?_, ?_⟩
    · rw [hgrows, List.mem_insertionSort]
      simp only [dfOfRows]
      exact List.mem_map.mpr ⟨tr, htr, rfl⟩
    · rw [get_normRow_of_mem hname']
      exact htre
  have hcond : ∀ r ∈ dft.rows, ∃ ts, Row.get r "tags" = Value.strList ts ∧
      (∀ t ∈ ts, Value.str t ∈ td1.df_tags.rows.map (fun r2 => Row.get r2 "name")) ∧
      Row.set r "tags" (Value.strList ts) = r := by
    intro r hr
    rcases getTagLists_spec h1' r hr with ⟨ts, htsmem, hts⟩
    refine ⟨ts, hts, ?_, ?_⟩
    · intro t ht
      refine hexist t ?_
      exact mem_keys_tallyAll.mpr ⟨ts, htsmem, ht⟩
    · refine Row.set_eq_self_of ?_ ?_ hts
      · exact Row.mem_keys_of_get_ne_null (by rw [hts]; intro hh; cases hh)
      · rw [hkeys r hr]
        exact hnodup
  have hclean2 : cleanRows (td1.df_tags.rows.map (fun r => Row.get r "name"))
      dft.rows = .ok dft.rows := cleanRows_eq_self hcond
  have hrowsne : rows ≠ [] := by
    intro hcon
    have hid' : "id" ∈ dfCols rows := hid
    rw [hcon] at hid'
    cases hid'
  have hdftne : dft.rows ≠ [] := by
    intro hcon
    have hlen := congrArg List.length hdftrows
    rw [hcon, List.length_insertionSort] at hlen
    simp only [dfOfRows, List.length_map, List.length_nil] at hlen
    exact hrowsne (List.length_eq_zero.mp hlen.symm)
  have hcols2 : dfCols dft.rows = dfCols rows :=
    dfCols_uniform hdftne hkeys hnodup
  have hnorm2 : dft.rows.map (normRow (dfCols rows)) = dft.rows := by
    have hpt : ∀ r ∈ dft.rows, normRow (dfCols rows) r = r := by
      intro r hr
      rcases hmemdft r hr with ⟨r0, _, rfl⟩
      exact normRow_normRow _ _
    calc dft.rows.map (normRow (dfCols rows))
        = dft.rows.map id := List.map_congr_left (fun r hr => hpt r hr)
      _ = dft.rows := List.map_id _
  have hsorted : List.Sorted rowLeIdP dft.rows := by
    rw [hdftrows]
    haveI := rowLeIdP_total
    haveI := rowLeIdP_trans
    exact List.sorted_insertionSort rowLeIdP _
  have hcolseq : (dfOfRows dft.rows).cols = dft.cols := by
    show dfCols dft.rows = dft.cols
    rw [hcols2]
    exact hdftcols.symm
  have hrowseq : (dfOfRows dft.rows).rows = dft.rows := by
    show dft.rows.map (normRow (dfCols dft.rows)) = dft.rows
    rw [hcols2]
    exact hnorm2
  have hsort2 : sortTableDF (dfOfRows dft.rows) = .ok dft := by
    unfold sortTableDF
    rw [if_pos (by rw [hcolseq, hdftcols]; exact hid)]
    rw [hrowseq, hcolseq]
    rw [List.Sorted.insertionSort_eq hsorted]
  have hlk : ∀ p ∈ tallyAll tls, ∃ r,
      dictLookup td1.df_tags.rows "name" (Value.str p.1) = some r := by
    intro p hp
    refine dictLookup_isSome_of ?_
    have hms : Value.str p.1 ∈ td1.df_tags.rows.map (fun r => Row.get r "name") :=
      hexist p.1 (List.mem_map_of_mem _ hp)
    rcases List.mem_map.mp hms with ⟨r, hr, hre⟩
    exact ⟨r, hr, hre⟩
  rcases buildRecalcTagRows_ok_of (preservedCols td1.df_tags.cols) hlk
    with ⟨tagRows2, hb2⟩
  have htrne : tagRows ≠ [] := by
    intro hcon2
    have hx : "count" ∈ dfCols ([] : List Row) := by
      rw [← hcon2]
      exact hcount'
    cases hx
  have htally_ne : tallyAll tls ≠ [] := by
    intro h0
    refine htrne (List.length_eq_zero.mp ?_)
    rw [buildRecalcTagRows_length h2', h0]
    rfl
  have htr2ne : tagRows2 ≠ [] := by
    intro hcon
    refine htally_ne (List.length_eq_zero.mp ?_)
    rw [← buildRecalcTagRows_length hb2, hcon]
    rfl
  have hpcols2 : ∀ c ∈ preservedCols td1.df_tags.cols, c ≠ "name" :=
    fun c hc => (preservedCols_spec c hc).1
  have hkeys2 := buildRecalcTagRows_keys hpcols2 hb2
  have hcount2 : "count" ∈ dfCols tagRows2 := by
    cases tagRows2 with
    | nil => exact absurd rfl htr2ne
    | cons r0 rest =>
      exact (mem_dfCols _).mpr
        ⟨r0, List.mem_cons_self _ _, (hkeys2 r0 (List.mem_cons_self _ _)).2⟩
  have hname2 : "name" ∈ dfCols tagRows2 := by
    cases tagRows2 with
    | nil => exact absurd rfl htr2ne
    | cons r0 rest =>
      exact (mem_dfCols _).mpr
        ⟨r0, List.mem_cons_self _ _, (hkeys2 r0 (List.mem_cons_self _ _)).1⟩
  have hg2ex : ∃ dfg2, sortTagsDF (dfOfRows tagRows2) = .ok dfg2 := by
    unfold sortTagsDF
    rw [if_pos ⟨hcount2, hname2⟩]
    exact ⟨_, rfl⟩
  rcases hg2ex with ⟨dfg2, hg2⟩
  have hrec2 : recalculate_tags ⟨dft, td1.df_tags⟩ =
      .ok (⟨dft, dfg2⟩, ⟨dft, dfg2⟩) := by
    unfold recalculate_tags
    simp only [h1', hb2, hg2]
  refine ⟨td1, ⟨dft, dfg2⟩, ?_, ?_⟩
  · unfold clean_tags_in_table
    rw [if_pos (by rw [hgcols]; exact hname)]
    have hcr2 : cleanRows (td1.df_tags.rows.map (fun r => Row.get r "name"))
        td1.df_table.rows = .ok dft.rows := by
      rw [htd1t]
      exact hclean2
    simp only [hcr2, hsort2, if_true, hrec2]
  · show (⟨dft, dfg2⟩ : TagData).df_table = td1.df_table
    rw [htd1t]

/-- Witness for C2 at a concrete input. -/
theorem c2_clean_idempotent_witness :
    ∃ s2 td2, clean_tags_in_table (⟨c9td.df_table, c9cat1⟩ : TagData) true =
        .ok (s2, td2) ∧
      td2.df_table = (⟨c9td.df_table, c9cat1⟩ : TagData).df_table :=
  c2_clean_idempotent c9td c9td ⟨c9td.df_table, c9cat1⟩ (by decide)

end TCleaner
